import Mathlib

/-!
Verification of the kaia repository's text-processing core against its
natural-language specification.

Python strings are embedded as `List Char` (`Str`), so that every operation
used by the scripts (splitting on a separator, stripping whitespace,
replacing substrings, prefix tests) is an executable structural function
amenable to both proof and concrete evaluation.
-/

abbrev Str := List Char

/-- Python `str.isspace` characters (ASCII fragment; the scripts only meet
ASCII whitespace). Mirrors what `str.strip()` removes. -/
def pyWS (c : Char) : Bool :=
  c = ' ' || c = '\t' || c = '\n' || c = '\r' || c = '\x0b' || c = '\x0c'

/-- Python `s.strip()`: drop whitespace from both ends. -/
def pyStrip (s : Str) : Str :=
  ((s.dropWhile pyWS).reverse.dropWhile pyWS).reverse

/-- Python `s.split('\n')`. `''.split('\n') == ['']`. -/
def splitNL : Str → List Str
  | [] => [[]]
  | c :: rest =>
    if c = '\n' then [] :: splitNL rest
    else
      match splitNL rest with
      | l :: ls => (c :: l) :: ls
      | [] => [[c]]

/-- Python `'\n'.join(lines)`. -/
def joinNL : List Str → Str
  | [] => []
  | [l] => l
  | l :: l' :: ls => l ++ '\n' :: joinNL (l' :: ls)

/-- Fuel-driven core of Python `s.split(sep)` (left-to-right, greedy,
non-overlapping). Structural in the fuel so that it evaluates by `decide`. -/
def pySplitOnF (sep : Str) : Nat → Str → List Str
  | 0, s => if s.isEmpty then [[]] else [s]
  | _ + 1, [] => [[]]
  | fuel + 1, c :: rest =>
    if sep = [] then [c :: rest]
    else if sep.isPrefixOf (c :: rest) then
      [] :: pySplitOnF sep fuel ((c :: rest).drop sep.length)
    else
      match pySplitOnF sep fuel rest with
      | l :: ls => (c :: l) :: ls
      | [] => [[c]]

/-- Python `s.split(sep)` for a non-empty separator. -/
def pySplitOn (sep s : Str) : List Str := pySplitOnF sep s.length s

/-- Fuel-driven core of Python `s.replace(pat, rep)` (replace every
non-overlapping occurrence, scanning left to right). -/
def pyReplaceF (pat rep : Str) : Nat → Str → Str
  | 0, s => s
  | _ + 1, [] => []
  | fuel + 1, c :: rest =>
    if pat = [] then c :: rest
    else if pat.isPrefixOf (c :: rest) then
      rep ++ pyReplaceF pat rep fuel ((c :: rest).drop pat.length)
    else
      c :: pyReplaceF pat rep fuel rest

/-- Python `s.replace(pat, rep)` for a non-empty pattern. -/
def pyReplace (s pat rep : Str) : Str := pyReplaceF pat rep s.length s

/-- Python `s.isdigit()` (ASCII digits; the filenames at issue are ASCII). -/
def isdigitStr (s : Str) : Bool :=
  !s.isEmpty && s.all Char.isDigit

/-- Python `int(s)` for a digit string. -/
def digitsToNat (s : Str) : Nat :=
  s.foldl (fun a c => a * 10 + (c.toNat - 48)) 0

/-! ### Section extraction (scripts/action_plan_auto.py, `extract_spec_sections`) -/

/-- The `'## '` header marker. -/
def hdrMark : Str := ['#', '#', ' ']

/-- `line.startswith('## ')`. -/
def isHeader (l : Str) : Bool := hdrMark.isPrefixOf l

/-- `line[3:].strip()`: the header's section name. -/
def headerName (l : Str) : Str := pyStrip (l.drop 3)

/-- Python-dict assignment `d[k] = v` on an insertion-ordered association
list: an existing key keeps its position and gets the new value, a fresh key
is appended. -/
def dictInsert (d : List (Str × Str)) (k v : Str) : List (Str × Str) :=
  if d.any (fun p => p.1 = k) then
    d.map (fun p => if p.1 = k then (k, v) else p)
  else d ++ [(k, v)]

/-- Python dict lookup `d.get(k)`. -/
def lookupD (d : List (Str × Str)) (k : Str) : Option Str :=
  (d.find? (fun p => p.1 = k)).map (·.2)

/-- Keys of the ordered dict. -/
def keysOf (d : List (Str × Str)) : List Str := d.map (·.1)

/-- The loop body of `extract_spec_sections`, with the running state made
explicit: `d` is `sections`, `cur` is `current_section` (Python `None` and
`''` are both falsy, so the empty list models both), `acc` is
`current_content`; the final flush of the last section is the `[]` case. -/
def runExtract (d : List (Str × Str)) (cur : Str) (acc : List Str) :
    List Str → List (Str × Str)
  | [] => if cur = [] then d else dictInsert d cur (pyStrip (joinNL acc))
  | l :: ls =>
    if isHeader l then
      runExtract (if cur = [] then d else dictInsert d cur (pyStrip (joinNL acc)))
        (headerName l) [] ls
    else if cur = [] then runExtract d cur acc ls
    else runExtract d cur (acc ++ [l]) ls

/-- `extract_spec_sections(spec_content)` from scripts/action_plan_auto.py
(the identical `extract_prd_sections` is the same function). -/
def extract_spec_sections (doc : Str) : List (Str × Str) :=
  runExtract [] [] [] (splitNL doc)

/-- `key_spec_sections` from scripts/action_plan_auto.py. -/
def key_spec_sections : List Str :=
  [ "Purpose & Scope".data
  , "Key Components".data
  , "External Integrations & APIs".data
  , "Implementation Roadmap".data
  , "Open Questions & Assumptions".data ]

/-- The context-assembly loop of scripts/action_plan_auto.py: one part per
recognized section present in the extracted mapping. -/
def base_context_parts (d : List (Str × Str)) : List Str :=
  key_spec_sections.filterMap (fun s =>
    (lookupD d s).map (fun v => "Technical Spec ".data ++ s ++ ":\n".data ++ v))

/-! ### Claim-side description of section extraction -/

/-- Spec-side description of a section's body: the lines strictly between
the header line and the next line starting with `'## '` (or the end of the
document), joined and whitespace-trimmed. Written from the spec's words, to
be compared with `extract_spec_sections`. -/
def sectionBody (ls : List Str) : Str :=
  pyStrip (joinNL (ls.takeWhile (fun l => !isHeader l)))

/-- Left-biased choice on optional section bodies. -/
def orO (a b : Option Str) : Option Str :=
  match a with
  | some v => some v
  | none => b

/-- Spec-side description of the extracted mapping at one name: the body
after the last `'## '`-header whose trimmed name equals `name` (later
occurrences win, matching dict overwrite), or nothing when no such header
occurs. Written from the spec's words. -/
def expectedSection (name : Str) : List Str → Option Str
  | [] => none
  | l :: ls =>
    if isHeader l ∧ headerName l = name then
      orO (expectedSection name ls) (some (sectionBody ls))
    else expectedSection name ls

example : extract_spec_sections "## A\nx\ny\n## B\nz".data =
    [("A".data, "x\ny".data), ("B".data, "z".data)] := by decide

example : lookupD (extract_spec_sections "intro\n## A\nx\n## A\nq".data) "A".data =
    some "q".data := by decide

example : expectedSection "A".data (splitNL "intro\n## A\nx\n## A\nq".data) =
    some "q".data := by decide

/-! ### Lookup lemmas for the ordered dict -/

theorem lookupD_nil (k : Str) : lookupD [] k = none := rfl

theorem lookupD_cons (p : Str × Str) (d : List (Str × Str)) (k : Str) :
    lookupD (p :: d) k = if p.1 = k then some p.2 else lookupD d k := by
  by_cases h : p.1 = k
  · simp [lookupD, List.find?_cons_of_pos, h]
  · simp [lookupD, List.find?_cons_of_neg, h]

theorem lookupD_map_overwrite (k v k' : Str) (d : List (Str × Str)) :
    lookupD (d.map (fun p => if p.1 = k then (k, v) else p)) k' =
      if k' = k ∧ d.any (fun p => p.1 = k) then some v else lookupD d k' := by
  induction d with
  | nil => simp [lookupD_nil]
  | cons p d ih =>
    by_cases hp : p.1 = k
    · by_cases hk : k' = k
      · simp only [List.map_cons, if_pos hp, lookupD_cons, List.any_cons, ih]
        simp [hp, hk]
      · have h2 : ¬ (p.1 = k') := by
          rw [hp]; exact fun h => hk h.symm
        simp only [List.map_cons, if_pos hp, lookupD_cons, List.any_cons, ih]
        have h1 : ¬ (k = k') := fun h => hk h.symm
        simp [h1, h2, hk]
    · simp only [List.map_cons, if_neg hp, lookupD_cons, List.any_cons, ih]
      by_cases hpk : p.1 = k'
      · have : ¬ (k' = k) := fun h => hp (hpk.trans h)
        simp [hpk, this]
      · have hdp : (decide (p.1 = k)) = false := decide_eq_false hp
        rw [hdp, Bool.false_or]
        simp [hpk]

theorem lookupD_append_single (k v k' : Str) (d : List (Str × Str))
    (hany : d.any (fun p => p.1 = k) = false) :
    lookupD (d ++ [(k, v)]) k' = if k' = k then some v else lookupD d k' := by
  induction d with
  | nil =>
    simp only [List.nil_append, lookupD_cons, lookupD_nil]
    by_cases h : k = k'
    · simp [h]
    · have h' : ¬ (k' = k) := fun hh => h hh.symm
      simp [h, h']
  | cons p d ih =>
    simp only [List.any_cons, Bool.or_eq_false_iff] at hany
    obtain ⟨hp, hd⟩ := hany
    have hp' : ¬ (p.1 = k) := by simpa using hp
    simp only [List.cons_append, lookupD_cons, ih hd]
    by_cases hpk : p.1 = k'
    · have : ¬ (k' = k) := fun hh => hp' (hpk.trans hh)
      simp [hpk, this]
    · simp [hpk]

/-- Python-dict assignment: lookup after `d[k] = v`. -/
theorem lookupD_dictInsert (d : List (Str × Str)) (k v k' : Str) :
    lookupD (dictInsert d k v) k' = if k' = k then some v else lookupD d k' := by
  unfold dictInsert
  by_cases hany : d.any (fun p => p.1 = k) = true
  · rw [if_pos hany, lookupD_map_overwrite]
    by_cases hk : k' = k
    · simp [hk, hany]
    · simp [hk]
  · rw [if_neg hany, lookupD_append_single k v k' d (Bool.eq_false_iff.mpr hany)]

@[simp] theorem orO_some (v : Str) (b : Option Str) : orO (some v) b = some v := rfl

@[simp] theorem orO_none (b : Option Str) : orO none b = b := rfl

theorem orO_assoc (a b c : Option Str) : orO (orO a b) c = orO a (orO b c) := by
  cases a <;> rfl

/-- Central characterization of the extraction loop: the final lookup of a
non-empty `name` is the spec-side `expectedSection` of the remaining lines,
falling back to the running section (when it is `name`) and then to the
dict built so far. -/
theorem runExtract_lookup (name : Str) (hname : name ≠ []) (ls : List Str) :
    ∀ (d : List (Str × Str)) (cur : Str) (acc : List Str),
    lookupD (runExtract d cur acc ls) name =
      orO (expectedSection name ls)
        (if cur = name then
          some (pyStrip (joinNL (acc ++ ls.takeWhile (fun l => !isHeader l))))
        else lookupD d name) := by
  induction ls with
  | nil =>
    intro d cur acc
    simp only [runExtract, expectedSection, List.takeWhile_nil, List.append_nil, orO_none]
    by_cases hc : cur = []
    · have hcn : ¬ (cur = name) := by rw [hc]; exact fun h => hname h.symm
      rw [if_pos hc, if_neg hcn]
    · rw [if_neg hc, lookupD_dictInsert]
      by_cases hcn : cur = name
      · rw [if_pos hcn, if_pos hcn.symm]
      · rw [if_neg hcn, if_neg (fun h => hcn h.symm)]
  | cons l ls ih =>
    intro d cur acc
    by_cases hl : isHeader l = true
    · have hrun : runExtract d cur acc (l :: ls) =
          runExtract (if cur = [] then d else dictInsert d cur (pyStrip (joinNL acc)))
            (headerName l) [] ls := by
        simp only [runExtract, if_pos hl]
      have htake : (l :: ls).takeWhile (fun l => !isHeader l) = [] := by
        simp [List.takeWhile_cons, hl]
      by_cases hn : headerName l = name
      · have hcond : isHeader l = true ∧ headerName l = name := ⟨hl, hn⟩
        rw [hrun, ih, hn, if_pos rfl]
        simp only [expectedSection, if_pos hcond, List.nil_append, sectionBody, orO_assoc,
          orO_some]
      · have hcond : ¬ (isHeader l = true ∧ headerName l = name) := fun h => hn h.2
        rw [hrun, ih, if_neg hn]
        simp only [expectedSection, if_neg hcond, htake, List.append_nil]
        by_cases hc : cur = []
        · have hcn : ¬ (cur = name) := by rw [hc]; exact fun h => hname h.symm
          rw [if_pos hc, if_neg hcn]
        · rw [if_neg hc, lookupD_dictInsert]
          by_cases hcn : cur = name
          · rw [if_pos hcn, if_pos hcn.symm]
          · rw [if_neg hcn, if_neg (fun h => hcn h.symm)]
    · have hcond : ¬ (isHeader l = true ∧ headerName l = name) := fun h => hl h.1
      have htake : (l :: ls).takeWhile (fun l => !isHeader l) =
          l :: ls.takeWhile (fun l => !isHeader l) := by
        simp [List.takeWhile_cons, hl]
      by_cases hc : cur = []
      · have hrun : runExtract d cur acc (l :: ls) = runExtract d cur acc ls := by
          simp only [runExtract, if_neg hl, if_pos hc]
        have hcn : ¬ (cur = name) := by rw [hc]; exact fun h => hname h.symm
        rw [hrun, ih, if_neg hcn]
        simp only [expectedSection, if_neg hcond, if_neg hcn]
      · have hrun : runExtract d cur acc (l :: ls) = runExtract d cur (acc ++ [l]) ls := by
          simp only [runExtract, if_neg hl, if_neg hc]
        rw [hrun, ih]
        simp only [expectedSection, if_neg hcond, htake]
        by_cases hcn : cur = name
        · rw [if_pos hcn, if_pos hcn, List.append_assoc, List.singleton_append]
        · rw [if_neg hcn, if_neg hcn]

/-! ### The extracted mapping has pairwise-distinct keys -/

theorem keysOf_dictInsert (d : List (Str × Str)) (k v : Str) :
    keysOf (dictInsert d k v) =
      if d.any (fun p => p.1 = k) then keysOf d else keysOf d ++ [k] := by
  unfold dictInsert keysOf
  split
  · rw [List.map_map]
    apply List.map_congr_left
    intro p _
    by_cases hp : p.1 = k
    · simp [hp]
    · simp [hp]
  · simp

theorem keysOf_dictInsert_nodup (d : List (Str × Str)) (k v : Str)
    (h : (keysOf d).Nodup) : (keysOf (dictInsert d k v)).Nodup := by
  rw [keysOf_dictInsert]
  split
  · exact h
  · next hany =>
    have hk : k ∉ keysOf d := by
      intro hmem
      apply hany
      rw [List.any_eq_true]
      obtain ⟨p, hp, hpk⟩ := List.exists_of_mem_map hmem
      exact ⟨p, hp, by simp [hpk]⟩
    simp [List.nodup_append, h, hk]

theorem runExtract_keys_nodup (ls : List Str) :
    ∀ (d : List (Str × Str)) (cur : Str) (acc : List Str),
      (keysOf d).Nodup → (keysOf (runExtract d cur acc ls)).Nodup := by
  induction ls with
  | nil =>
    intro d cur acc h
    simp only [runExtract]
    split
    · exact h
    · exact keysOf_dictInsert_nodup _ _ _ h
  | cons l ls ih =>
    intro d cur acc h
    simp only [runExtract]
    split
    · apply ih
      split
      · exact h
      · exact keysOf_dictInsert_nodup _ _ _ h
    · split
      · exact ih _ _ _ h
      · exact ih _ _ _ h

/-! ### Unrecognized section names contribute nothing to the context -/

theorem lookupD_filter_recognized (d : List (Str × Str)) (s : Str)
    (hs : s ∈ key_spec_sections) :
    lookupD (d.filter (fun p => decide (p.1 ∈ key_spec_sections))) s = lookupD d s := by
  induction d with
  | nil => rfl
  | cons p d ih =>
    by_cases hc : p.1 ∈ key_spec_sections
    · rw [List.filter_cons_of_pos (by simp [hc]), lookupD_cons, lookupD_cons, ih]
    · have hps : ¬ (p.1 = s) := fun h => hc (h ▸ hs)
      rw [List.filter_cons_of_neg (by simp [hc]), lookupD_cons, if_neg hps, ih]

theorem base_context_parts_filter (d : List (Str × Str)) :
    base_context_parts (d.filter (fun p => decide (p.1 ∈ key_spec_sections))) =
      base_context_parts d := by
  unfold base_context_parts
  apply List.filterMap_congr
  intro s hs
  rw [lookupD_filter_recognized d s hs]

/-- Claim C1: for every markdown document and recognized section name, the
extractor's mapping has exactly one entry per name (its keys are pairwise
distinct), the entry at a recognized name is present exactly when a
`'## '`-header with that trimmed name occurs and holds the
whitespace-trimmed lines strictly between that header and the next
`'## '`-line or the end of the document (`expectedSection`), and entries
whose names are outside the recognized set contribute nothing to the
assembled context. -/
theorem C1_section_extractor (doc : Str) (name : Str)
    (hmem : name ∈ key_spec_sections) :
    (keysOf (extract_spec_sections doc)).Nodup ∧
    lookupD (extract_spec_sections doc) name = expectedSection name (splitNL doc) ∧
    base_context_parts ((extract_spec_sections doc).filter
      (fun p => decide (p.1 ∈ key_spec_sections))) =
      base_context_parts (extract_spec_sections doc) := by
  have hname : name ≠ [] := by
    intro h
    rw [h] at hmem
    revert hmem
    decide
  refine ⟨runExtract_keys_nodup _ _ _ _ (by simp [keysOf]), ?_, base_context_parts_filter _⟩
  rw [extract_spec_sections, runExtract_lookup name hname]
  have hcn : ¬ (([] : Str) = name) := fun h => hname h.symm
  rw [if_neg hcn, lookupD_nil]
  cases expectedSection name (splitNL doc) <;> rfl

/-- Witness for C1 at a concrete document and recognized name. -/
theorem C1_section_extractor_witness :
    "Purpose & Scope".data ∈ key_spec_sections ∧
    lookupD (extract_spec_sections "## Purpose & Scope\nbody line\n## Other\nx".data)
        "Purpose & Scope".data =
      expectedSection "Purpose & Scope".data
        (splitNL "## Purpose & Scope\nbody line\n## Other\nx".data) :=
  ⟨by decide, (C1_section_extractor _ _ (by decide)).2.1⟩

/-! ### Versioned filenames (scripts/master_auto.py and master_auto.py) -/

/-- Python `sub in s`: `pat` occurs as a contiguous substring of `s`. -/
def hasSub (pat : Str) : Str → Bool
  | [] => pat.isEmpty
  | c :: rest => pat.isPrefixOf (c :: rest) || hasSub pat rest

/-- The `.md` extension. -/
def mdTok : Str := ['.', 'm', 'd']

/-- The `_v` version separator. -/
def vSep : Str := ['_', 'v']

/-- The characters after the last `'.'` of `f`. -/
def afterDot (f : Str) : Str := (f.reverse.takeWhile (fun c => c ≠ '.')).reverse

/-- The index of the last `'.'` of `f` (meaningful when `'.' ∈ f`). -/
def lastDotIdx (f : Str) : Nat := f.length - (afterDot f).length - 1

/-- pathlib `Path(f).stem`: the name with its last suffix removed, where a
suffix exists only when the last `'.'` sits strictly inside the name
(`0 < i < len - 1` on the index of the last dot, as in CPython). -/
def pstem (f : Str) : Str :=
  if '.' ∈ f then
    if 0 < lastDotIdx f ∧ lastDotIdx f < f.length - 1 then f.take (lastDotIdx f) else f
  else f

/-- Membership in `output_dir.glob("*_v*.md")`: the name decomposes as
`A ++ "_v" ++ B ++ ".md"`, i.e. it ends in `.md` and `_v` occurs before
that extension. -/
def globVMd (f : Str) : Bool :=
  mdTok.isSuffixOf f && hasSub vSep (f.take (f.length - 3))

/-- The per-file body of `get_next_version` in scripts/master_auto.py:
split the stem on `'_v'` and keep the last part when it is numeric. -/
def fileVersion (f : Str) : Option Nat :=
  if globVMd f then
    let parts := pySplitOn vSep (pstem f)
    if 2 ≤ parts.length ∧ isdigitStr (parts.getLastD []) then
      some (digitsToNat (parts.getLastD []))
    else none
  else none

/-- `get_next_version(output_dir)` from scripts/master_auto.py; `none`
models a directory that does not exist. -/
def get_next_version (dir : Option (List Str)) : Nat :=
  match dir with
  | none => 1
  | some files =>
    let vs := files.filterMap fileVersion
    if vs.isEmpty then 1 else vs.foldl Nat.max 0 + 1

/-- The per-file body of `get_next_version` in master_auto.py (the
base-filename variant): keep files starting with `base.replace('.md','')`
whose `.replace('.md','')` splits on `'_v'` into exactly two parts with a
numeric second part. -/
def baseFileVersion (base_filename f : Str) : Option Nat :=
  if (pyReplace base_filename mdTok []).isPrefixOf f then
    let parts := pySplitOn vSep (pyReplace f mdTok [])
    if parts.length = 2 ∧ isdigitStr (parts.getD 1 []) then
      some (digitsToNat (parts.getD 1 []))
    else none
  else none

/-- `get_next_version(output_dir, base_filename)` from master_auto.py. -/
def get_next_version_base (dir : Option (List Str)) (base_filename : Str) : Nat :=
  match dir with
  | none => 1
  | some files =>
    let vs := files.filterMap (baseFileVersion base_filename)
    if vs.isEmpty then 1 else vs.foldl Nat.max 0 + 1

/-! ### Claim-side description of the next-version computation -/

/-- Spec-side: the text after the final `'_v'` of `s`, or nothing when
`'_v'` does not occur (`'_v'` cannot overlap itself, so skipping both
characters after a match loses no occurrence). -/
def afterLastV : Str → Option Str
  | [] => none
  | [_] => none
  | c₁ :: c₂ :: rest =>
    if c₁ = '_' ∧ c₂ = 'v' then
      match afterLastV rest with
      | some t => some t
      | none => some rest
    else afterLastV (c₂ :: rest)

/-- Spec-side: a filename matching `<base>_v<N>.md` with numeric `N`
contributes `N` (the digits between the final `'_v'` and the `.md`
extension); any other name contributes nothing. Written from the spec's
words. -/
def claimSuffixNum (f : Str) : Option Nat :=
  if mdTok.isSuffixOf f then
    match afterLastV (f.take (f.length - 3)) with
    | some t => if isdigitStr t then some (digitsToNat t) else none
    | none => none
  else none

/-- Spec-side next version: `max(N) + 1` over the matching files, and `1`
when the directory is missing or no file matches. -/
def claimNextVersion (dir : Option (List Str)) : Nat :=
  match dir with
  | none => 1
  | some files =>
    let vs := files.filterMap claimSuffixNum
    if vs.isEmpty then 1 else vs.foldl Nat.max 0 + 1

example : fileVersion "prd_v3.md".data = some 3 := by decide
example : fileVersion "prd_v1_v2.md".data = some 2 := by decide
example : fileVersion "x_vabc.md".data = none := by decide
example : fileVersion "prd_v2.md.md".data = none := by decide
example : claimSuffixNum "prd_v2.md.md".data = none := by decide
example : baseFileVersion "prd.md".data "prd_v2.md.md".data = some 2 := by decide
example : get_next_version (some ["base_v1.md".data, "base_v3.md".data]) = 4 := by decide

/-! ### Evaluation lemmas for `pySplitOn` -/

theorem pySplitOnF_nil (sep : Str) (fuel : Nat) : pySplitOnF sep fuel [] = [[]] := by
  cases fuel <;> rfl

theorem pySplitOnF_congr (sep : Str) : ∀ (n : Nat) (s : Str), s.length ≤ n →
    ∀ (f₁ f₂ : Nat), s.length ≤ f₁ → s.length ≤ f₂ →
    pySplitOnF sep f₁ s = pySplitOnF sep f₂ s := by
  intro n
  induction n with
  | zero =>
    intro s hs f₁ f₂ _ _
    have hnil : s = [] := List.eq_nil_of_length_eq_zero (Nat.le_zero.mp hs)
    subst hnil
    rw [pySplitOnF_nil, pySplitOnF_nil]
  | succ n ih =>
    intro s hs f₁ f₂ h₁ h₂
    cases s with
    | nil => rw [pySplitOnF_nil, pySplitOnF_nil]
    | cons c rest =>
      simp only [List.length_cons] at hs h₁ h₂
      obtain ⟨g₁, rfl⟩ : ∃ g, f₁ = g + 1 := ⟨f₁ - 1, by omega⟩
      obtain ⟨g₂, rfl⟩ : ∃ g, f₂ = g + 1 := ⟨f₂ - 1, by omega⟩
      simp only [pySplitOnF]
      by_cases hsep : sep = []
      · simp [hsep]
      · simp only [if_neg hsep]
        have hlen : 1 ≤ sep.length := by
          cases sep with
          | nil => exact absurd rfl hsep
          | cons a t => simp
        by_cases hpre : sep.isPrefixOf (c :: rest) = true
        · simp only [if_pos hpre]
          have hdl : ((c :: rest).drop sep.length).length ≤ n := by
            simp only [List.length_drop, List.length_cons]
            omega
          rw [ih _ hdl g₁ g₂ (by simp only [List.length_drop, List.length_cons]; omega)
            (by simp only [List.length_drop, List.length_cons]; omega)]
        · simp only [if_neg hpre]
          rw [ih rest (by omega) g₁ g₂ (by omega) (by omega)]

theorem pySplitOn_sep (sep t : Str) (hsep : sep ≠ []) :
    pySplitOn sep (sep ++ t) = [] :: pySplitOn sep t := by
  obtain ⟨c, sep', rfl⟩ : ∃ c sep', sep = c :: sep' := by
    cases sep with
    | nil => exact absurd rfl hsep
    | cons c sep' => exact ⟨c, sep', rfl⟩
  show pySplitOnF _ ((c :: sep' ++ t).length) _ = _
  simp only [List.cons_append, List.length_cons, pySplitOnF, List.append_eq]
  have hpre : (c :: sep').isPrefixOf (c :: (sep' ++ t)) = true :=
    List.isPrefixOf_iff_prefix.mpr ⟨t, by simp⟩
  rw [if_neg (by simp : ¬ (c :: sep' = [])), if_pos hpre, List.drop_succ_cons,
    List.drop_left]
  exact congrArg _ (pySplitOnF_congr _ (sep' ++ t).length t (by simp) _ _
    (by simp) (by simp))

theorem pySplitOn_cons (sep : Str) (c : Char) (s : Str) (hsep : ¬ sep = [])
    (hnp : ¬ sep.isPrefixOf (c :: s) = true) :
    pySplitOn sep (c :: s) =
      match pySplitOn sep s with
      | l :: ls => (c :: l) :: ls
      | [] => [[c]] := by
  show pySplitOnF _ ((c :: s).length) _ = _
  simp only [List.length_cons, pySplitOnF]
  rw [if_neg hsep, if_neg hnp]
  rfl

theorem pySplitOnF_ne_nil (sep : Str) : ∀ (fuel : Nat) (s : Str),
    pySplitOnF sep fuel s ≠ [] := by
  intro fuel
  induction fuel with
  | zero =>
    intro s
    cases s <;> simp [pySplitOnF_nil, pySplitOnF]
  | succ n ih =>
    intro s
    cases s with
    | nil => simp [pySplitOnF_nil]
    | cons c rest =>
      simp only [pySplitOnF]
      by_cases hsep : sep = []
      · simp [hsep]
      · rw [if_neg hsep]
        by_cases hpre : sep.isPrefixOf (c :: rest) = true
        · rw [if_pos hpre]
          simp
        · rw [if_neg hpre]
          cases hh : pySplitOnF sep n rest with
          | nil => exact absurd hh (ih rest)
          | cons l ls => simp

theorem pySplitOn_ne_nil (sep s : Str) : pySplitOn sep s ≠ [] :=
  pySplitOnF_ne_nil sep s.length s

/-! ### The last split part is the text after the final `'_v'` -/

theorem getLastD_irrel (l : List Str) (a b : Str) (h : l ≠ []) :
    l.getLastD a = l.getLastD b := by
  rw [List.getLastD_eq_getLast?, List.getLastD_eq_getLast?]
  cases hh : l.getLast? with
  | none => exact absurd (List.getLast?_eq_none_iff.mp hh) h
  | some y => rfl

theorem vSep_not_prefixOf_of_ne (c₁ c₂ : Char) (rest : Str)
    (hc : ¬ (c₁ = '_' ∧ c₂ = 'v')) :
    ¬ vSep.isPrefixOf (c₁ :: c₂ :: rest) = true := by
  intro hpre
  obtain ⟨u, hu⟩ := List.isPrefixOf_iff_prefix.mp hpre
  simp only [vSep, List.cons_append, List.cons.injEq] at hu
  exact hc ⟨hu.1.symm, hu.2.1.symm⟩

theorem vSep_not_prefixOf_one (c : Char) : ¬ vSep.isPrefixOf [c] = true := by
  simp [vSep, List.isPrefixOf]

theorem pySplitOn_afterLastV : ∀ (s : Str),
    (afterLastV s = none → pySplitOn vSep s = [s]) ∧
    (∀ t, afterLastV s = some t →
      (pySplitOn vSep s).getLastD [] = t ∧ 2 ≤ (pySplitOn vSep s).length)
  | [] => by
    constructor
    · intro _; rfl
    · intro t ht; simp [afterLastV] at ht
  | [c] => by
    constructor
    · intro _
      rw [pySplitOn_cons vSep c [] (by simp [vSep]) (vSep_not_prefixOf_one c)]
      rfl
    · intro t ht; simp [afterLastV] at ht
  | c₁ :: c₂ :: rest => by
    by_cases hc : c₁ = '_' ∧ c₂ = 'v'
    · obtain ⟨rfl, rfl⟩ := hc
      have hsep : ('_' :: 'v' :: rest : Str) = vSep ++ rest := rfl
      rw [hsep, pySplitOn_sep vSep rest (by simp [vSep])]
      have haft : afterLastV ('_' :: 'v' :: rest) =
          match afterLastV rest with
          | some t => some t
          | none => some rest := by
        simp [afterLastV]
      constructor
      · intro hnone
        rw [hsep] at haft
        rw [haft] at hnone
        cases h : afterLastV rest <;> rw [h] at hnone <;> simp at hnone
      · intro t ht
        rw [hsep] at haft
        rw [haft] at ht
        cases h : afterLastV rest with
        | none =>
          rw [h] at ht
          have hteq : rest = t := by simpa using ht
          subst hteq
          rw [(pySplitOn_afterLastV rest).1 h]
          simp [List.getLastD]
        | some t' =>
          rw [h] at ht
          have hteq : t' = t := by simpa using ht
          subst hteq
          obtain ⟨hlast, hlen⟩ := (pySplitOn_afterLastV rest).2 t' h
          refine ⟨?_, ?_⟩
          · rw [List.getLastD_cons]
            exact hlast
          · simp only [List.length_cons]
            omega
    · have hnp := vSep_not_prefixOf_of_ne c₁ c₂ rest hc
      rw [pySplitOn_cons vSep c₁ (c₂ :: rest) (by simp [vSep]) hnp]
      have haft : afterLastV (c₁ :: c₂ :: rest) = afterLastV (c₂ :: rest) := by
        simp [afterLastV, hc]
      constructor
      · intro hnone
        rw [haft] at hnone
        rw [(pySplitOn_afterLastV (c₂ :: rest)).1 hnone]
      · intro t ht
        rw [haft] at ht
        obtain ⟨hlast, hlen⟩ := (pySplitOn_afterLastV (c₂ :: rest)).2 t ht
        cases hsp : pySplitOn vSep (c₂ :: rest) with
        | nil => exact absurd hsp (pySplitOn_ne_nil _ _)
        | cons l ls =>
          rw [hsp] at hlast hlen
          cases ls with
          | nil => simp at hlen
          | cons l₂ ls₂ =>
            refine ⟨?_, by simp⟩
            rw [List.getLastD_cons] at hlast ⊢
            rw [getLastD_irrel (l₂ :: ls₂) (c₁ :: l) l (by simp)]
            exact hlast

/-! ### `hasSub` agrees with `afterLastV` on occurrence of `'_v'` -/

theorem hasSub_vSep_eq_isSome : ∀ (s : Str), hasSub vSep s = (afterLastV s).isSome
  | [] => rfl
  | [c] => by
    have h1 : vSep.isPrefixOf [c] = false := Bool.eq_false_iff.mpr (vSep_not_prefixOf_one c)
    simp only [hasSub, afterLastV, h1, Bool.false_or]
    rfl
  | c₁ :: c₂ :: rest => by
    by_cases hc : c₁ = '_' ∧ c₂ = 'v'
    · obtain ⟨rfl, rfl⟩ := hc
      have hpre : vSep.isPrefixOf ('_' :: 'v' :: rest) = true :=
        List.isPrefixOf_iff_prefix.mpr ⟨rest, rfl⟩
      have hL : hasSub vSep ('_' :: 'v' :: rest) = true := by
        simp [hasSub, hpre]
      have hR : afterLastV ('_' :: 'v' :: rest) =
          match afterLastV rest with
          | some t => some t
          | none => some rest := by
        simp [afterLastV]
      rw [hL, hR]
      cases afterLastV rest <;> rfl
    · have hnp : vSep.isPrefixOf (c₁ :: c₂ :: rest) = false :=
        Bool.eq_false_iff.mpr (vSep_not_prefixOf_of_ne c₁ c₂ rest hc)
      simp only [hasSub, afterLastV, hnp, Bool.false_or, if_neg hc]
      exact hasSub_vSep_eq_isSome (c₂ :: rest)

/-! ### `pstem` of a name ending in `.md` -/

theorem afterDot_append_md (core : Str) : afterDot (core ++ mdTok) = ['m', 'd'] := by
  unfold afterDot
  have hrev : (core ++ mdTok).reverse = 'd' :: 'm' :: '.' :: core.reverse := by
    rw [List.reverse_append]
    rfl
  rw [hrev, List.takeWhile_cons, if_pos (by decide), List.takeWhile_cons,
    if_pos (by decide), List.takeWhile_cons, if_neg (by decide)]
  rfl

theorem lastDotIdx_append_md (core : Str) : lastDotIdx (core ++ mdTok) = core.length := by
  unfold lastDotIdx
  rw [afterDot_append_md, List.length_append]
  simp [mdTok]

theorem pstem_append_md (core : Str) (hc : core ≠ []) :
    pstem (core ++ mdTok) = core := by
  have hdot : '.' ∈ core ++ mdTok := by
    apply List.mem_append_right
    simp [mdTok]
  have hpos : 0 < core.length := List.length_pos.mpr hc
  unfold pstem
  rw [if_pos hdot, lastDotIdx_append_md, List.length_append,
    if_pos ⟨hpos, by simp [mdTok]⟩, List.take_left]

/-! ### The two next-version computations agree with the spec-side one -/

theorem fileVersion_eq_claimSuffixNum (f : Str) : fileVersion f = claimSuffixNum f := by
  unfold fileVersion claimSuffixNum globVMd
  by_cases hsuf : mdTok.isSuffixOf f = true
  · obtain ⟨core, rfl⟩ : ∃ core, f = core ++ mdTok := by
      obtain ⟨u, hu⟩ := List.isSuffixOf_iff_suffix.mp hsuf
      exact ⟨u, hu.symm⟩
    have htake : (core ++ mdTok).take ((core ++ mdTok).length - 3) = core := by
      rw [List.length_append, show core.length + mdTok.length - 3 = core.length by
        simp [mdTok], List.take_left]
    rw [htake, hsuf, if_pos rfl, Bool.true_and, hasSub_vSep_eq_isSome]
    cases h : afterLastV core with
    | none => rfl
    | some t =>
      have hcore : core ≠ [] := by
        intro h0
        rw [h0] at h
        simp [afterLastV] at h
      rw [pstem_append_md core hcore]
      obtain ⟨hlast, hlen⟩ := (pySplitOn_afterLastV core).2 t h
      simp only [Option.isSome_some, if_true, hlast]
      by_cases hd : isdigitStr t = true
      · rw [if_pos ⟨hlen, hd⟩, if_pos hd]
      · rw [if_neg (fun hh => hd hh.2), if_neg hd]
  · have hsuf' : mdTok.isSuffixOf f = false := Bool.eq_false_iff.mpr hsuf
    rw [hsuf', Bool.false_and, if_neg (by simp), if_neg (by simp)]

theorem filterMap_filter_isSome (g : Str → Option Nat) :
    ∀ (l : List Str), (l.filter (fun x => (g x).isSome)).filterMap g = l.filterMap g := by
  intro l
  induction l with
  | nil => rfl
  | cons x l ih =>
    cases h : g x with
    | none =>
      rw [List.filter_cons_of_neg (by simp [h]), List.filterMap_cons_none h, ih]
    | some v =>
      rw [List.filter_cons_of_pos (by simp [h]), List.filterMap_cons_some h,
        List.filterMap_cons_some h, ih]

theorem foldl_max_le (b : Nat) :
    ∀ (vs : List Nat) (a : Nat), a ≤ b → (∀ v ∈ vs, v ≤ b) → vs.foldl Nat.max a ≤ b := by
  intro vs
  induction vs with
  | nil => intro a ha _; exact ha
  | cons v vs ih =>
    intro a ha hv
    exact ih _ (Nat.max_le.mpr ⟨ha, hv v (by simp)⟩) (fun w hw => hv w (by simp [hw]))

/-- Claim C2: the glob-based next-version computation of the sequence
orchestrator returns `max(N) + 1` over the numeric suffixes of files
matching `<base>_v<N>.md` (any base), `1` for a missing directory or when
no file matches, and in particular `4` for `{base_v1.md, base_v3.md}` and
`1` for an empty directory. -/
theorem C2_next_version (dir : Option (List Str)) :
    get_next_version dir = claimNextVersion dir ∧
    get_next_version (some ["base_v1.md".data, "base_v3.md".data]) = 4 ∧
    get_next_version (some []) = 1 ∧
    get_next_version none = 1 := by
  refine ⟨?_, by decide, by decide, rfl⟩
  cases dir with
  | none => rfl
  | some files =>
    show (if (List.filterMap fileVersion files).isEmpty = true then 1
        else List.foldl Nat.max 0 (List.filterMap fileVersion files) + 1) =
      (if (List.filterMap claimSuffixNum files).isEmpty = true then 1
        else List.foldl Nat.max 0 (List.filterMap claimSuffixNum files) + 1)
    rw [List.filterMap_congr (fun f _ => fileVersion_eq_claimSuffixNum f)]

/-- Counterexample for C9 as stated: `prd_v2.md.md` has no well-formed
`_v<N>.md` suffix (the text after its final `_v` is `2.md`, non-numeric),
yet the base-filename variant of the next-version computation counts it:
with only this file present the result changes from 1 to 3. -/
theorem C9_counterexample :
    claimSuffixNum "prd_v2.md.md".data = none ∧
    get_next_version_base (some ["prd_v2.md.md".data]) "prd.md".data = 3 ∧
    get_next_version_base (some []) "prd.md".data = 1 := by decide

/-- Claim C9 (amended): malformed filenames never cause an error; in the
glob-based computation of scripts/master_auto.py they also never affect the
returned version (dropping them leaves the result unchanged); the
base-filename variant of master_auto.py instead counts exactly the files
accepted by its own filter (prefix check plus exactly-two-part `_v` split
after removing every `.md` occurrence), under which a malformed name such
as `prd_v2.md.md` does affect the result. -/
theorem C9_malformed_ignored (files : List Str) (base : Str) :
    get_next_version (some files) =
      get_next_version (some (files.filter (fun f => (claimSuffixNum f).isSome))) ∧
    get_next_version_base (some files) base =
      get_next_version_base
        (some (files.filter (fun f => (baseFileVersion base f).isSome))) base := by
  constructor
  · show (if (List.filterMap fileVersion files).isEmpty = true then 1
        else List.foldl Nat.max 0 (List.filterMap fileVersion files) + 1) = _
    rw [List.filterMap_congr (fun f _ => fileVersion_eq_claimSuffixNum f)]
    show _ = (if (List.filterMap fileVersion _).isEmpty = true then 1
        else List.foldl Nat.max 0 (List.filterMap fileVersion _) + 1)
    rw [List.filterMap_congr (fun f _ => fileVersion_eq_claimSuffixNum f),
      filterMap_filter_isSome]
  · show (if (List.filterMap (baseFileVersion base) files).isEmpty = true then 1
        else List.foldl Nat.max 0 (List.filterMap (baseFileVersion base) files) + 1) =
      (if (List.filterMap (baseFileVersion base)
          (files.filter (fun f => (baseFileVersion base f).isSome))).isEmpty = true then 1
        else List.foldl Nat.max 0 (List.filterMap (baseFileVersion base)
          (files.filter (fun f => (baseFileVersion base f).isSome))) + 1)
    rw [filterMap_filter_isSome (baseFileVersion base) files]

/-- Counterexample for C10 as stated: in a directory already holding
`prd_v20.md`, adding `other_v9.md` does not make the next version 10. -/
theorem C10_counterexample :
    get_next_version (some ["prd_v20.md".data, "other_v9.md".data]) = 21 ∧
    (21 : Nat) ≠ 10 := by decide

/-- Claim C10 (amended): the sequence orchestrator's version counter has no
per-document base name - it maximises over every `*_v*.md` file - so adding
`other_v9.md` to a directory whose existing numeric suffixes are all at
most 9 moves the next computed version for every document type to 10. -/
theorem C10_shared_version_counter (files : List Str)
    (h : ∀ v ∈ files.filterMap fileVersion, v ≤ 9) :
    get_next_version (some (files ++ ["other_v9.md".data])) = 10 := by
  show (if (List.filterMap fileVersion (files ++ ["other_v9.md".data])).isEmpty = true
      then 1
      else List.foldl Nat.max 0 (List.filterMap fileVersion (files ++ ["other_v9.md".data])) + 1) = 10
  rw [List.filterMap_append]
  have h9 : List.filterMap fileVersion ["other_v9.md".data] = [9] := by decide
  rw [h9, if_neg (by simp), List.foldl_append]
  have hm : (files.filterMap fileVersion).foldl Nat.max 0 ≤ 9 :=
    foldl_max_le 9 _ 0 (by omega) h
  have hmax : Nat.max ((files.filterMap fileVersion).foldl Nat.max 0) 9 = 9 :=
    Nat.max_eq_right hm
  show Nat.max ((files.filterMap fileVersion).foldl Nat.max 0) 9 + 1 = 10
  rw [hmax]

/-- Witness for C10 at a concrete directory. -/
theorem C10_shared_version_counter_witness :
    (∀ v ∈ (["prd_v1.md".data] : List Str).filterMap fileVersion, v ≤ 9) ∧
    get_next_version (some (["prd_v1.md".data] ++ ["other_v9.md".data])) = 10 :=
  ⟨by decide, C10_shared_version_counter ["prd_v1.md".data] (by decide)⟩

/-! ### Orchestrators (scripts/master_auto.py `main` and master_auto.py `main`) -/

/-- The five stages of the sequence orchestrator scripts/master_auto.py. -/
inductive Stage
  | prd
  | spec
  | action_plan
  | milestones
  | gtm
deriving DecidableEq, Fintype

/-- Position of a stage in the fixed chain. -/
def stageIdx : Stage → Nat
  | .prd => 0
  | .spec => 1
  | .action_plan => 2
  | .milestones => 3
  | .gtm => 4

/-- Outcome of an orchestrator run: which stages were invoked (in order)
and the process exit code (0 on normal completion, 1 via `sys.exit(1)`). -/
structure RunOutcome (σ : Type) where
  invoked : List σ
  exitCode : Nat
deriving DecidableEq

/-- `main` of scripts/master_auto.py: `skip s` models the `--skip-*` flag
for stage `s`, `oc s` the success of `run_script` for stage `s`. Each
failing stage hits a `sys.exit(1)`; the action-plan and milestones steps
also exit when no technical spec was generated. -/
def masterRun (skip : Stage → Bool) (oc : Stage → Bool) : RunOutcome Stage :=
  if skip .prd = false ∧ oc .prd = false then ⟨[.prd], 1⟩
  else
    let i1 : List Stage := if skip .prd then [] else [.prd]
    if skip .spec = false ∧ oc .spec = false then ⟨i1 ++ [.spec], 1⟩
    else
      let i2 := i1 ++ (if skip .spec then [] else [.spec])
      let hspec : Bool := !skip .spec
      if skip .action_plan = false ∧ hspec = false then ⟨i2, 1⟩
      else if skip .action_plan = false ∧ oc .action_plan = false then
        ⟨i2 ++ [.action_plan], 1⟩
      else
        let i3 := i2 ++ (if skip .action_plan then [] else [.action_plan])
        if skip .milestones = false ∧ hspec = false then ⟨i3, 1⟩
        else if skip .milestones = false ∧ oc .milestones = false then
          ⟨i3 ++ [.milestones], 1⟩
        else
          let i4 := i3 ++ (if skip .milestones then [] else [.milestones])
          if skip .gtm = false ∧ oc .gtm = false then ⟨i4 ++ [.gtm], 1⟩
          else ⟨i4 ++ (if skip .gtm then [] else [.gtm]), 0⟩

/-- The three stages of master_auto.py. -/
inductive Stage2
  | prd
  | spec
  | action
deriving DecidableEq, Fintype

/-- Position of a stage in master_auto.py's chain. -/
def stage2Idx : Stage2 → Nat
  | .prd => 0
  | .spec => 1
  | .action => 2

/-- Flags and environment facts of master_auto.py's `main`. -/
structure M2Flags where
  input_ok : Bool
  skip_prd : Bool
  skip_spec : Bool
  skip_action_plan : Bool
  existing_prd_ok : Bool
  existing_spec_ok : Bool
deriving DecidableEq, Fintype

/-- `main` of master_auto.py: PRD and spec failures `sys.exit(1)`; an
action-plan failure is only reported ("Don't exit here as the main
documents are already generated") and the script ends normally. -/
def master2Run (fl : M2Flags) (oc : Stage2 → Bool) : RunOutcome Stage2 :=
  if fl.input_ok = false then ⟨[], 1⟩
  else if fl.skip_prd = false ∧ oc .prd = false then ⟨[.prd], 1⟩
  else if fl.skip_prd ∧ fl.existing_prd_ok = false then ⟨[], 1⟩
  else
    let i1 : List Stage2 := if fl.skip_prd then [] else [.prd]
    if fl.skip_spec = false ∧ oc .spec = false then ⟨i1 ++ [.spec], 1⟩
    else if fl.skip_spec ∧ fl.existing_spec_ok = false then ⟨i1, 1⟩
    else
      let i2 := i1 ++ (if fl.skip_spec then [] else [.spec])
      ⟨i2 ++ (if fl.skip_action_plan then [] else [.action]), 0⟩

/-- Claim C3: in both orchestrators, whenever a non-final stage is invoked
and fails, the run exits with a non-zero status and no later stage is ever
invoked (skipped stages are never invoked anyway). In scripts/master_auto.py
this holds for every stage; in master_auto.py it holds for the non-final
stages (PRD, spec), the final action-plan stage being tolerated by design. -/
theorem C3_orchestrator_short_circuit :
    (∀ (skip oc : Stage → Bool) (s : Stage),
      s ∈ (masterRun skip oc).invoked → oc s = false →
      (masterRun skip oc).exitCode = 1 ∧
      ∀ t ∈ (masterRun skip oc).invoked, stageIdx t ≤ stageIdx s) ∧
    (∀ (fl : M2Flags) (oc : Stage2 → Bool) (s : Stage2),
      stage2Idx s < 2 →
      s ∈ (master2Run fl oc).invoked → oc s = false →
      (master2Run fl oc).exitCode = 1 ∧
      ∀ t ∈ (master2Run fl oc).invoked, stage2Idx t ≤ stage2Idx s) := by
  constructor
  · decide
  · decide

/-- Witness for C3: with nothing skipped and the spec stage failing, the
run stops at the spec stage with exit code 1. -/
theorem C3_orchestrator_short_circuit_witness :
    (Stage.spec ∈ (masterRun (fun _ => false) (fun s => decide (s ≠ .spec))).invoked) ∧
    ((fun s => decide (s ≠ Stage.spec)) Stage.spec = false) ∧
    ((masterRun (fun _ => false) (fun s => decide (s ≠ .spec))).exitCode = 1 ∧
      ∀ t ∈ (masterRun (fun _ => false) (fun s => decide (s ≠ .spec))).invoked,
        stageIdx t ≤ stageIdx Stage.spec) :=
  ⟨by decide, by decide,
    C3_orchestrator_short_circuit.1 _ _ Stage.spec (by decide) (by decide)⟩

/-! ### File-write traces of the generation scripts (scripts/prd_auto.py,
scripts/milestones_auto.py) -/

/-- One row of the CSV template (prd_instructions.csv). -/
structure Row where
  sectionName : Str
  roleEmulated : Str
  promptInstruction : Str
  outputFormat : Str
  acceptance : Str
deriving DecidableEq

/-- A file write event: the file is opened for (over)writing or appending. -/
inductive WMode
  | create
  | append
deriving DecidableEq

/-- How a generation script ends. -/
inductive ScriptOutcome
  | ok
  | fatalNoKey
  | fatalAuth
  | fatalNoTemplate
  | fatalNoInput
  | fatalNoActionPlan
  | fatalApi
  | fatalWrite
deriving DecidableEq

/-- A script run: the file writes it performed, in order, and its outcome. -/
structure ScriptRun where
  writes : List (Str × WMode)
  outcome : ScriptOutcome
deriving DecidableEq

/-- The section loop of scripts/prd_auto.py: one chat call per row (the
oracle `api i` is the result of the `i`-th call, `none` modelling a raised
error), appending to the validation file when `"Validation" in section`. -/
def prdLoop (api : Nat → Option Str) (vPath : Str) :
    List Row → Nat → List (Str × WMode) × Bool
  | [], _ => ([], true)
  | r :: rs, i =>
    match api i with
    | none => ([], false)
    | some _ =>
      let evs := if hasSub "Validation".data r.sectionName then
          [(vPath, WMode.append)] else []
      let rest := prdLoop api vPath rs (i + 1)
      (evs ++ rest.1, rest.2)

/-- scripts/prd_auto.py as a trace over its environment: credential check,
`client.models.list()` probe, template CSV read, input read, then
`init_validation_file` (a write!), the section loop, and on success the
output write followed by the final validation append. -/
def prd_auto_run (apiKey : Option Str) (authOk : Bool)
    (template : Option (List Row)) (input : Option Str)
    (api : Nat → Option Str) (outPath vPath : Str) : ScriptRun :=
  match apiKey with
  | none => ⟨[], .fatalNoKey⟩
  | some _ =>
    if authOk = false then ⟨[], .fatalAuth⟩
    else
      match template with
      | none => ⟨[], .fatalNoTemplate⟩
      | some rows =>
        match input with
        | none => ⟨[], .fatalNoInput⟩
        | some _ =>
          let lp := prdLoop api vPath rows 0
          if lp.2 then
            ⟨(vPath, .create) :: lp.1 ++ [(outPath, .create), (vPath, .append)], .ok⟩
          else ⟨(vPath, .create) :: lp.1, .fatalApi⟩

/-- scripts/milestones_auto.py `main` as a trace: credential check, tech
spec read, optional action-plan read, one generation call, then the single
output write. -/
def milestones_run (apiKey : Option Str) (techSpec : Option Str)
    (apFileGiven : Bool) (apContent : Option Str) (api : Option Str)
    (outPath : Str) (writeOk : Bool) : ScriptRun :=
  match apiKey with
  | none => ⟨[], .fatalNoKey⟩
  | some _ =>
    match techSpec with
    | none => ⟨[], .fatalNoInput⟩
    | some _ =>
      if apFileGiven ∧ apContent = none then ⟨[], .fatalNoActionPlan⟩
      else
        match api with
        | none => ⟨[], .fatalApi⟩
        | some _ =>
          if writeOk then ⟨[(outPath, .create)], .ok⟩
          else ⟨[(outPath, .create)], .fatalWrite⟩

/-- Counterexample for C4 as stated: with a valid key and template, an API
error on the very first section call aborts the PRD stage, yet the
validation tracking file has already been created - a failing stage does
not write nothing. -/
theorem C4_counterexample :
    (prd_auto_run (some "k".data) true
        (some [⟨"Overview".data, "r".data, "p".data, "f".data, "a".data⟩])
        (some "idea".data) (fun _ => none)
        "output/prd.md".data "output/validation_tracking.md".data).outcome ≠
      ScriptOutcome.ok ∧
    (prd_auto_run (some "k".data) true
        (some [⟨"Overview".data, "r".data, "p".data, "f".data, "a".data⟩])
        (some "idea".data) (fun _ => none)
        "output/prd.md".data "output/validation_tracking.md".data).writes ≠ [] := by
  decide

theorem prdLoop_writes_vPath (api : Nat → Option Str) (vPath : Str) :
    ∀ (rows : List Row) (i : Nat) (e : Str × WMode),
      e ∈ (prdLoop api vPath rows i).1 → e.1 = vPath := by
  intro rows
  induction rows with
  | nil => intro i e he; simp [prdLoop] at he
  | cons r rs ih =>
    intro i e he
    simp only [prdLoop] at he
    cases h : api i with
    | none => rw [h] at he; simp at he
    | some out =>
      rw [h] at he
      simp only [List.mem_append] at he
      rcases he with he | he
      · by_cases hv : hasSub "Validation".data r.sectionName = true
        · rw [if_pos hv] at he
          simp at he
          rw [he]
        · rw [if_neg hv] at he
          simp at he
      · exact ih (i + 1) e he

/-- Claim C4 (amended): the primary output file is written only by a fully
successful PRD stage - on any failure every write so far targets the
validation tracking file, so the output markdown is untouched - but the
stage is not write-free on failure: the validation file is created before
the loop and appended to during it. -/
theorem C4_output_only_on_success (apiKey : Option Str) (authOk : Bool)
    (template : Option (List Row)) (input : Option Str)
    (api : Nat → Option Str) (outPath vPath : Str) :
    ((prd_auto_run apiKey authOk template input api outPath vPath).outcome ≠
        ScriptOutcome.ok →
      ∀ e ∈ (prd_auto_run apiKey authOk template input api outPath vPath).writes,
        e.1 = vPath) ∧
    ((prd_auto_run apiKey authOk template input api outPath vPath).outcome =
        ScriptOutcome.ok →
      (outPath, WMode.create) ∈
        (prd_auto_run apiKey authOk template input api outPath vPath).writes) := by
  unfold prd_auto_run
  split
  · exact ⟨fun _ e he => absurd he (by simp), fun h => by simp at h⟩
  · split
    · exact ⟨fun _ e he => absurd he (by simp), fun h => by simp at h⟩
    · split
      · exact ⟨fun _ e he => absurd he (by simp), fun h => by simp at h⟩
      · rename_i rows
        split
        · exact ⟨fun _ e he => absurd he (by simp), fun h => by simp at h⟩
        · dsimp only
          split
          · refine ⟨fun hne => absurd rfl hne, fun _ => ?_⟩
            simp
          · refine ⟨fun _ e he => ?_, fun h => by simp at h⟩
            simp only [List.mem_cons] at he
            rcases he with he | he
            · rw [he]
            · exact prdLoop_writes_vPath api vPath rows 0 e he

/-- Witness for C4 (amended) at a concrete failing run: the stage fails and
every performed write targets the validation file. -/
theorem C4_output_only_on_success_witness :
    ((prd_auto_run (some "k".data) true
        (some [⟨"Overview".data, "r".data, "p".data, "f".data, "a".data⟩])
        (some "idea".data) (fun _ => none)
        "output/prd.md".data "output/validation_tracking.md".data).outcome ≠
      ScriptOutcome.ok) ∧
    (∀ e ∈ (prd_auto_run (some "k".data) true
        (some [⟨"Overview".data, "r".data, "p".data, "f".data, "a".data⟩])
        (some "idea".data) (fun _ => none)
        "output/prd.md".data "output/validation_tracking.md".data).writes,
      e.1 = "output/validation_tracking.md".data) :=
  ⟨by decide,
    (C4_output_only_on_success (some "k".data) true
      (some [⟨"Overview".data, "r".data, "p".data, "f".data, "a".data⟩])
      (some "idea".data) (fun _ => none)
      "output/prd.md".data "output/validation_tracking.md".data).1 (by decide)⟩

/-- Claim C7: with the credential variable unset, both cited generation
scripts stop at once with a descriptive fatal error, having performed no
file write at all (the key check precedes every read and write). -/
theorem C7_missing_credential (authOk : Bool) (template : Option (List Row))
    (input : Option Str) (api : Nat → Option Str) (outPath vPath : Str)
    (techSpec : Option Str) (apGiven : Bool) (apContent : Option Str)
    (api2 : Option Str) (outPath2 : Str) (writeOk : Bool) :
    prd_auto_run none authOk template input api outPath vPath =
      ⟨[], ScriptOutcome.fatalNoKey⟩ ∧
    milestones_run none techSpec apGiven apContent api2 outPath2 writeOk =
      ⟨[], ScriptOutcome.fatalNoKey⟩ :=
  ⟨rfl, rfl⟩

/-! ### Placeholder substitution (kaia/scripts/action_plan_auto.py) -/

/-- The opening brace character. -/
def lbrace : Char := '\x7b'

/-- The closing brace character. -/
def rbrace : Char := '\x7d'

/-- The `SPEC_MD` placeholder token. -/
def tokSPEC : Str :=
  [lbrace, lbrace, 'S', 'P', 'E', 'C', '_', 'M', 'D', rbrace, rbrace]

/-- The `PRD_MD` placeholder token. -/
def tokPRD : Str :=
  [lbrace, lbrace, 'P', 'R', 'D', '_', 'M', 'D', rbrace, rbrace]

/-- A string without brace characters (so without placeholder fragments). -/
def braceFree (s : Str) : Bool :=
  s.all (fun c => ¬ (c = lbrace ∨ c = rbrace))

/-- The prompt assembly of kaia/scripts/action_plan_auto.py:
`template.replace(SPEC token, spec).replace(PRD token, prd_context or "")`. -/
def kaia_prompt (template techSpec prdContext : Str) : Str :=
  pyReplace (pyReplace template tokSPEC techSpec) tokPRD
    (if prdContext = [] then [] else prdContext)

/-- A well-formed placeholder template: an interleaving of brace-free
characters and standalone placeholder tokens. -/
inductive GoodT : Str → Prop
  | nil : GoodT []
  | chr (c : Char) (s : Str) : c ≠ lbrace → c ≠ rbrace → GoodT s → GoodT (c :: s)
  | tokS (s : Str) : GoodT s → GoodT (tokSPEC ++ s)
  | tokP (s : Str) : GoodT s → GoodT (tokPRD ++ s)

/-! ### Evaluation lemmas for `pyReplace` -/

theorem pyReplaceF_nil (pat rep : Str) (fuel : Nat) : pyReplaceF pat rep fuel [] = [] := by
  cases fuel <;> rfl

theorem pyReplaceF_congr (pat rep : Str) : ∀ (n : Nat) (s : Str), s.length ≤ n →
    ∀ (f₁ f₂ : Nat), s.length ≤ f₁ → s.length ≤ f₂ →
    pyReplaceF pat rep f₁ s = pyReplaceF pat rep f₂ s := by
  intro n
  induction n with
  | zero =>
    intro s hs f₁ f₂ _ _
    have hnil : s = [] := List.eq_nil_of_length_eq_zero (Nat.le_zero.mp hs)
    subst hnil
    rw [pyReplaceF_nil, pyReplaceF_nil]
  | succ n ih =>
    intro s hs f₁ f₂ h₁ h₂
    cases s with
    | nil => rw [pyReplaceF_nil, pyReplaceF_nil]
    | cons c rest =>
      simp only [List.length_cons] at hs h₁ h₂
      obtain ⟨g₁, rfl⟩ : ∃ g, f₁ = g + 1 := ⟨f₁ - 1, by omega⟩
      obtain ⟨g₂, rfl⟩ : ∃ g, f₂ = g + 1 := ⟨f₂ - 1, by omega⟩
      simp only [pyReplaceF]
      by_cases hpat : pat = []
      · simp [hpat]
      · simp only [if_neg hpat]
        have hlen : 1 ≤ pat.length := by
          cases pat with
          | nil => exact absurd rfl hpat
          | cons a t => simp
        by_cases hpre : pat.isPrefixOf (c :: rest) = true
        · simp only [if_pos hpre]
          rw [ih _ (by simp only [List.length_drop, List.length_cons]; omega) g₁ g₂
            (by simp only [List.length_drop, List.length_cons]; omega)
            (by simp only [List.length_drop, List.length_cons]; omega)]
        · simp only [if_neg hpre]
          rw [ih rest (by omega) g₁ g₂ (by omega) (by omega)]

theorem pyReplace_nil (pat rep : Str) : pyReplace [] pat rep = [] := rfl

theorem pyReplace_matched (pat rep t : Str) (hpat : pat ≠ []) :
    pyReplace (pat ++ t) pat rep = rep ++ pyReplace t pat rep := by
  obtain ⟨c, pat', rfl⟩ : ∃ c pat', pat = c :: pat' := by
    cases pat with
    | nil => exact absurd rfl hpat
    | cons c pat' => exact ⟨c, pat', rfl⟩
  show pyReplaceF _ _ ((c :: pat' ++ t).length) _ = _
  simp only [List.cons_append, List.length_cons, pyReplaceF, List.append_eq]
  have hpre : (c :: pat').isPrefixOf (c :: (pat' ++ t)) = true :=
    List.isPrefixOf_iff_prefix.mpr ⟨t, by simp⟩
  rw [if_neg (by simp : ¬ (c :: pat' = [])), if_pos hpre, List.drop_succ_cons,
    List.drop_left]
  exact congrArg _ (pyReplaceF_congr _ _ (pat' ++ t).length t (by simp) _ _
    (by simp) (by simp))

theorem pyReplace_cons_step (pat rep : Str) (c : Char) (s : Str)
    (hpat : ¬ pat = []) (hnp : ¬ pat.isPrefixOf (c :: s) = true) :
    pyReplace (c :: s) pat rep = c :: pyReplace s pat rep := by
  show pyReplaceF _ _ ((c :: s).length) _ = _
  simp only [List.length_cons, pyReplaceF]
  rw [if_neg hpat, if_neg hnp]
  rfl

/-! ### Head-mismatch lemmas for `isPrefixOf` -/

theorem isPrefixOf_head_ne (a b : Char) (l m : Str) (h : a ≠ b) :
    (a :: l).isPrefixOf (b :: m) = false := by
  simp only [List.isPrefixOf]
  rw [beq_eq_false_iff_ne.mpr h, Bool.false_and]

theorem isPrefixOf_head2_ne (x a b : Char) (l m : Str) (h : a ≠ b) :
    (x :: a :: l).isPrefixOf (x :: b :: m) = false := by
  simp only [List.isPrefixOf]
  rw [beq_eq_false_iff_ne.mpr h, Bool.false_and, Bool.and_false]

theorem isPrefixOf_head3_ne (x y a b : Char) (l m : Str) (h : a ≠ b) :
    (x :: y :: a :: l).isPrefixOf (x :: y :: b :: m) = false := by
  simp only [List.isPrefixOf]
  rw [beq_eq_false_iff_ne.mpr h, Bool.false_and, Bool.and_false, Bool.and_false]

/-- Scanning over a block no occurrence of `pat` can start in: when no
non-empty suffix of `a` is prefix-compatible with `pat`, replacement
distributes over `a ++ s`. -/
theorem pyReplace_append_unreachable (pat rep : Str) (hpat : pat ≠ []) :
    ∀ (a s : Str),
      (∀ u : Str, u ≠ [] → u <:+ a → ¬ u <+: pat ∧ ¬ pat <+: u) →
      pyReplace (a ++ s) pat rep = a ++ pyReplace s pat rep := by
  intro a
  induction a with
  | nil => intro s _; simp
  | cons c a' ih =>
    intro s hcond
    have hfull := hcond (c :: a') (by simp) (List.suffix_refl _)
    have hnp : ¬ pat.isPrefixOf ((c :: a') ++ s) = true := by
      intro hpre
      have h1 : pat <+: (c :: a') ++ s := List.isPrefixOf_iff_prefix.mp hpre
      have h2 : (c :: a') <+: (c :: a') ++ s := ⟨s, rfl⟩
      rcases List.prefix_or_prefix_of_prefix h1 h2 with h | h
      · exact hfull.2 h
      · exact hfull.1 h
    rw [List.cons_append, pyReplace_cons_step pat rep c (a' ++ s) (fun h => hpat h)
      (by rw [← List.cons_append]; exact hnp)]
    rw [ih s (fun u hu hsuf => hcond u hu (hsuf.trans (List.suffix_cons c a')))]
    rfl

theorem suffix_conditions_of_braceFree (pat : Str) (hpat : ∃ t, pat = lbrace :: t)
    (a : Str) (ha : braceFree a = true) :
    ∀ u : Str, u ≠ [] → u <:+ a → ¬ u <+: pat ∧ ¬ pat <+: u := by
  intro u hu hsuf
  obtain ⟨c, u', rfl⟩ : ∃ c u', u = c :: u' := by
    cases u with
    | nil => exact absurd rfl hu
    | cons c u' => exact ⟨c, u', rfl⟩
  have hca : c ∈ a := hsuf.subset (by simp)
  have hc : ¬ (c = lbrace ∨ c = rbrace) := by
    have := List.all_eq_true.mp ha c hca
    simpa using this
  obtain ⟨t, rfl⟩ := hpat
  constructor
  · rintro ⟨w, hw⟩
    simp only [List.cons_append, List.cons.injEq] at hw
    exact hc (Or.inl hw.1)
  · rintro ⟨w, hw⟩
    simp only [List.cons_append, List.cons.injEq] at hw
    exact hc (Or.inl hw.1.symm)

theorem pyReplace_append_braceFree (pat rep : Str) (hpat : ∃ t, pat = lbrace :: t)
    (a s : Str) (ha : braceFree a = true) :
    pyReplace (a ++ s) pat rep = a ++ pyReplace s pat rep :=
  pyReplace_append_unreachable pat rep
    (by obtain ⟨t, rfl⟩ := hpat; simp) a s
    (suffix_conditions_of_braceFree pat hpat a ha)

theorem pyReplace_braceFree_noop (pat rep s : Str) (hpat : ∃ t, pat = lbrace :: t)
    (hs : braceFree s = true) : pyReplace s pat rep = s := by
  have := pyReplace_append_braceFree pat rep hpat s [] hs
  simpa [pyReplace_nil] using this

theorem pyReplace_tokP_skips_tokS (pv s : Str) :
    pyReplace (tokSPEC ++ s) tokPRD pv = tokSPEC ++ pyReplace s tokPRD pv := by
  apply pyReplace_append_unreachable tokPRD pv (by decide)
  intro u hu hsuf
  have hmem : u ∈ tokSPEC.tails := (List.mem_tails _ _).mpr hsuf
  fin_cases hmem <;> first
    | exact absurd rfl hu
    | exact ⟨by decide, by decide⟩

theorem pyReplace_tokS_skips_tokP (sv s : Str) :
    pyReplace (tokPRD ++ s) tokSPEC sv = tokPRD ++ pyReplace s tokSPEC sv := by
  apply pyReplace_append_unreachable tokSPEC sv (by decide)
  intro u hu hsuf
  have hmem : u ∈ tokPRD.tails := (List.mem_tails _ _).mpr hsuf
  fin_cases hmem <;> first
    | exact absurd rfl hu
    | exact ⟨by decide, by decide⟩

theorem tok_not_prefix_cons (pat : Str) (t : Str) (hp : pat = lbrace :: t) (c : Char)
    (hc : c ≠ lbrace) (x : Str) : pat.isPrefixOf (c :: x) = false := by
  subst hp
  exact isPrefixOf_head_ne lbrace c t x (fun h => hc h.symm)

theorem pyReplace_cons_nb (pat rep : Str) (t : Str) (hp : pat = lbrace :: t)
    (c : Char) (hc : c ≠ lbrace) (x : Str) :
    pyReplace (c :: x) pat rep = c :: pyReplace x pat rep :=
  pyReplace_cons_step pat rep c x (by subst hp; simp)
    (by rw [tok_not_prefix_cons pat t hp c hc x]; simp)

theorem braceFree_append (a b : Str) :
    braceFree (a ++ b) = (braceFree a && braceFree b) := by
  simp [braceFree, List.all_append]

/-- On a well-formed template with brace-free replacement values, the two
substitutions commute and the result is brace-free. -/
theorem goodSubst (sv pv : Str) (hsv : braceFree sv = true) (hpv : braceFree pv = true) :
    ∀ t, GoodT t →
      pyReplace (pyReplace t tokSPEC sv) tokPRD pv =
        pyReplace (pyReplace t tokPRD pv) tokSPEC sv ∧
      braceFree (pyReplace (pyReplace t tokSPEC sv) tokPRD pv) = true := by
  intro t ht
  induction ht with
  | nil => exact ⟨rfl, rfl⟩
  | chr c s hc1 hc2 _ ih =>
    rw [pyReplace_cons_nb tokSPEC sv _ rfl c hc1, pyReplace_cons_nb tokPRD pv _ rfl c hc1,
      pyReplace_cons_nb tokPRD pv _ rfl c hc1, pyReplace_cons_nb tokSPEC sv _ rfl c hc1]
    refine ⟨congrArg (c :: ·) ih.1, ?_⟩
    have : braceFree (c :: pyReplace (pyReplace s tokSPEC sv) tokPRD pv) =
        ((¬ (c = lbrace ∨ c = rbrace) : Bool) &&
          braceFree (pyReplace (pyReplace s tokSPEC sv) tokPRD pv)) := by
      simp [braceFree]
    rw [this, ih.2, Bool.and_true]
    simp [hc1, hc2]
  | tokS s _ ih =>
    rw [pyReplace_matched tokSPEC sv s (by decide),
      pyReplace_append_braceFree tokPRD pv ⟨_, rfl⟩ sv _ hsv,
      pyReplace_tokP_skips_tokS pv s,
      pyReplace_matched tokSPEC sv _ (by decide)]
    refine ⟨congrArg (sv ++ ·) ih.1, ?_⟩
    rw [braceFree_append, ih.2, hsv]
    rfl
  | tokP s _ ih =>
    rw [pyReplace_tokS_skips_tokP sv s,
      pyReplace_matched tokPRD pv _ (by decide),
      pyReplace_matched tokPRD pv s (by decide),
      pyReplace_append_braceFree tokSPEC sv ⟨_, rfl⟩ pv _ hpv]
    refine ⟨congrArg (pv ++ ·) ih.1, ?_⟩
    rw [braceFree_append, ih.2, hpv]
    rfl

/-- A token (which starts with a brace) cannot occur in a brace-free string. -/
theorem hasSub_false_of_braceFree (pat : Str) (t : Str) (hp : pat = lbrace :: t) :
    ∀ (s : Str), braceFree s = true → hasSub pat s = false := by
  intro s
  induction s with
  | nil => intro _; subst hp; rfl
  | cons c rest ih =>
    intro hs
    have hc : ¬ (c = lbrace ∨ c = rbrace) := by
      have := List.all_eq_true.mp hs c (by simp)
      simpa using this
    have hrest : braceFree rest = true := by
      have : braceFree (c :: rest) = ((¬ (c = lbrace ∨ c = rbrace) : Bool) &&
          braceFree rest) := by simp [braceFree]
      rw [this, Bool.and_eq_true] at hs
      exact hs.2
    simp only [hasSub]
    rw [tok_not_prefix_cons pat t hp c (fun h => hc (Or.inl h)) rest, Bool.false_or]
    exact ih hrest

/-- Counterexample for C5 as stated: with template `"{{SPEC_MD}}"`, spec
value `"{{PRD_MD}}"` and PRD value `"X"` (both non-empty), the two
substitution orders disagree, and one order leaves a literal placeholder
token in the output. -/
theorem C5_counterexample :
    tokPRD ≠ ([] : Str) ∧ (['X'] : Str) ≠ [] ∧
    pyReplace (pyReplace tokSPEC tokSPEC tokPRD) tokPRD ['X'] ≠
      pyReplace (pyReplace tokSPEC tokPRD ['X']) tokSPEC tokPRD ∧
    hasSub tokPRD (pyReplace (pyReplace tokSPEC tokPRD ['X']) tokSPEC tokPRD) = true := by
  decide

/-- Claim C5 (amended): for every template assembled from brace-free text
and standalone placeholder tokens, and every pair of non-empty brace-free
replacement values, substituting `SPEC_MD` then `PRD_MD` equals the reverse
order, and neither placeholder token occurs in the result. -/
theorem C5_substitution_commutes (t sv pv : Str) (ht : GoodT t)
    (hsv : braceFree sv = true) (hpv : braceFree pv = true)
    (hsvne : sv ≠ []) (hpvne : pv ≠ []) :
    pyReplace (pyReplace t tokSPEC sv) tokPRD pv =
      pyReplace (pyReplace t tokPRD pv) tokSPEC sv ∧
    hasSub tokSPEC (pyReplace (pyReplace t tokSPEC sv) tokPRD pv) = false ∧
    hasSub tokPRD (pyReplace (pyReplace t tokSPEC sv) tokPRD pv) = false := by
  obtain ⟨hcomm, hbf⟩ := goodSubst sv pv hsv hpv t ht
  exact ⟨hcomm, hasSub_false_of_braceFree tokSPEC _ rfl _ hbf,
    hasSub_false_of_braceFree tokPRD _ rfl _ hbf⟩

/-- Witness for C5 at a concrete template and concrete values. -/
theorem C5_substitution_commutes_witness :
    GoodT (tokSPEC ++ ('\n' :: (tokPRD ++ []))) ∧
    braceFree "spec body".data = true ∧ braceFree "prd body".data = true ∧
    "spec body".data ≠ ([] : Str) ∧ "prd body".data ≠ ([] : Str) ∧
    pyReplace (pyReplace (tokSPEC ++ ('\n' :: (tokPRD ++ []))) tokSPEC "spec body".data)
        tokPRD "prd body".data =
      pyReplace (pyReplace (tokSPEC ++ ('\n' :: (tokPRD ++ []))) tokPRD "prd body".data)
        tokSPEC "spec body".data :=
  ⟨GoodT.tokS _ (GoodT.chr '\n' _ (by decide) (by decide) (GoodT.tokP [] GoodT.nil)),
    by decide, by decide, by decide, by decide,
    (C5_substitution_commutes _ _ _
      (GoodT.tokS _ (GoodT.chr '\n' _ (by decide) (by decide) (GoodT.tokP [] GoodT.nil)))
      (by decide) (by decide) (by decide) (by decide)).1⟩

/-- Every brace-free string is a well-formed template. -/
theorem GoodT_of_braceFree : ∀ (a : Str), braceFree a = true → GoodT a := by
  intro a
  induction a with
  | nil => intro _; exact GoodT.nil
  | cons c rest ih =>
    intro ha
    have hc : ¬ (c = lbrace ∨ c = rbrace) := by
      have := List.all_eq_true.mp ha c (by simp)
      simpa using this
    have hrest : braceFree rest = true := by
      have : braceFree (c :: rest) = ((¬ (c = lbrace ∨ c = rbrace) : Bool) &&
          braceFree rest) := by simp [braceFree]
      rw [this, Bool.and_eq_true] at ha
      exact ha.2
    exact GoodT.chr c rest (fun h => hc (Or.inl h)) (fun h => hc (Or.inr h)) (ih hrest)

/-- Prepending brace-free text preserves template well-formedness. -/
theorem GoodT_append_chars : ∀ (a : Str), braceFree a = true →
    ∀ (s : Str), GoodT s → GoodT (a ++ s) := by
  intro a
  induction a with
  | nil => intro _ s hs; exact hs
  | cons c rest ih =>
    intro ha s hs
    have hc : ¬ (c = lbrace ∨ c = rbrace) := by
      have := List.all_eq_true.mp ha c (by simp)
      simpa using this
    have hrest : braceFree rest = true := by
      have : braceFree (c :: rest) = ((¬ (c = lbrace ∨ c = rbrace) : Bool) &&
          braceFree rest) := by simp [braceFree]
      rw [this, Bool.and_eq_true] at ha
      exact ha.2
    exact GoodT.chr c (rest ++ s) (fun h => hc (Or.inl h)) (fun h => hc (Or.inr h))
      (ih hrest s hs)

/-- Modelled from the spec: the action-plan prompt template
(kaia/prompts/action_plan_template.md) is not among the sources; per the
spec it is a markdown template containing the `SPEC_MD` and `PRD_MD`
placeholder tokens amid ordinary markdown text. -/
def action_plan_template : Str :=
  "# Action Plan\n\nTechnical specification:\n".data ++ (tokSPEC ++
    ("\n\nPRD context:\n".data ++ (tokPRD ++ "\n\nProduce an action plan.\n".data)))

theorem action_plan_template_good : GoodT action_plan_template := by
  refine GoodT_append_chars _ (by decide) _ (GoodT.tokS _ ?_)
  refine GoodT_append_chars _ (by decide) _ (GoodT.tokP _ ?_)
  exact GoodT_of_braceFree _ (by decide)

/-- Counterexample for C6 as stated: substitution is textual, so spec
content shaped like `x7b x7b PRD {{PRD_MD}} _MD x7d x7d` re-forms a literal
`PRD_MD` placeholder token when the token it contains is replaced by the
empty marker - the assembled prompt of a run with no PRD supplied contains
the literal placeholder token. -/
theorem C6_counterexample :
    GoodT action_plan_template ∧
    hasSub tokPRD (kaia_prompt action_plan_template
      ([lbrace, lbrace, 'P', 'R', 'D'] ++ (tokPRD ++ ['_', 'M', 'D', rbrace, rbrace]))
      []) = true :=
  ⟨action_plan_template_good, by decide⟩

/-- Claim C6 (amended): when no PRD file is supplied (`prd_context` empty),
the `PRD_MD` placeholder is replaced with the explicit empty marker `""`
(the `or ""` fallback) and the literal token does not remain anywhere in
the assembled prompt, for any well-formed placeholder template and
brace-free spec content (the counterexample shows brace-laden spec content
can re-form the token). -/
theorem C6_empty_prd_marker (template techSpec : Str) (ht : GoodT template)
    (hspec : braceFree techSpec = true) :
    kaia_prompt template techSpec [] =
      pyReplace (pyReplace template tokSPEC techSpec) tokPRD [] ∧
    hasSub tokPRD (kaia_prompt template techSpec []) = false := by
  refine ⟨rfl, ?_⟩
  have hbf := (goodSubst techSpec [] hspec rfl template ht).2
  exact hasSub_false_of_braceFree tokPRD _ rfl _ hbf

/-- Witness for C6 at the spec-modelled template and a concrete spec. -/
theorem C6_empty_prd_marker_witness :
    GoodT action_plan_template ∧ braceFree "the spec".data = true ∧
    hasSub tokPRD (kaia_prompt action_plan_template "the spec".data []) = false :=
  ⟨action_plan_template_good, by decide,
    (C6_empty_prd_marker action_plan_template "the spec".data
      action_plan_template_good (by decide)).2⟩

/-! ### `pyStrip` facts: idempotence and absorption of edge whitespace -/

theorem dropWhile_head_false (p : Char → Bool) (l : Str)
    (h : ∀ c, l.head? = some c → p c = false) : l.dropWhile p = l := by
  cases l with
  | nil => rfl
  | cons a l =>
    rw [List.dropWhile_cons, if_neg]
    rw [h a rfl]
    simp

theorem head_dropWhile_false (p : Char → Bool) :
    ∀ (l : Str) (c : Char), (l.dropWhile p).head? = some c → p c = false := by
  intro l
  induction l with
  | nil => intro c hc; simp at hc
  | cons a l ih =>
    intro c hc
    rw [List.dropWhile_cons] at hc
    by_cases ha : p a = true
    · rw [if_pos ha] at hc
      exact ih c hc
    · rw [if_neg ha] at hc
      simp only [List.head?_cons, Option.some.injEq] at hc
      rw [← hc]
      exact Bool.eq_false_iff.mpr ha

theorem getLast?_of_suffix (A B : Str) (h : A <:+ B) (hA : A ≠ []) :
    A.getLast? = B.getLast? := by
  obtain ⟨w, rfl⟩ := h
  rw [List.getLast?_append_of_ne_nil w hA]

theorem pyStrip_idem (s : Str) : pyStrip (pyStrip s) = pyStrip s := by
  have hLhead : ∀ c, (s.dropWhile pyWS).head? = some c → pyWS c = false :=
    head_dropWhile_false pyWS s
  have hMhead : ∀ c, ((s.dropWhile pyWS).reverse.dropWhile pyWS).head? = some c →
      pyWS c = false := head_dropWhile_false pyWS _
  have hMlast : ∀ c, ((s.dropWhile pyWS).reverse.dropWhile pyWS).getLast? = some c →
      pyWS c = false := by
    intro c hc
    have hMne : (s.dropWhile pyWS).reverse.dropWhile pyWS ≠ [] := by
      intro h0
      rw [h0] at hc
      simp at hc
    rw [getLast?_of_suffix _ _ (List.dropWhile_suffix pyWS) hMne,
      List.getLast?_reverse] at hc
    exact hLhead c hc
  show ((((((s.dropWhile pyWS).reverse.dropWhile pyWS).reverse).dropWhile
      pyWS).reverse.dropWhile pyWS).reverse) = _
  rw [dropWhile_head_false pyWS ((s.dropWhile pyWS).reverse.dropWhile pyWS).reverse
    (by
      intro c hc
      rw [List.head?_reverse] at hc
      exact hMlast c hc)]
  rw [List.reverse_reverse,
    dropWhile_head_false pyWS ((s.dropWhile pyWS).reverse.dropWhile pyWS) hMhead]
  rfl

theorem pyStrip_cons_ws (c : Char) (h : pyWS c = true) (s : Str) :
    pyStrip (c :: s) = pyStrip s := by
  show (((c :: s).dropWhile pyWS).reverse.dropWhile pyWS).reverse = _
  rw [List.dropWhile_cons, if_pos h]
  rfl

theorem pyStrip_append_ws (s : Str) (c : Char) (h : pyWS c = true) :
    pyStrip (s ++ [c]) = pyStrip s := by
  show (((s ++ [c]).dropWhile pyWS).reverse.dropWhile pyWS).reverse = _
  rw [List.dropWhile_append]
  by_cases he : (s.dropWhile pyWS).isEmpty = true
  · rw [if_pos he]
    have hs : s.dropWhile pyWS = [] := by
      cases hh : s.dropWhile pyWS with
      | nil => rfl
      | cons a l => rw [hh] at he; simp at he
    have hc : ([c] : Str).dropWhile pyWS = [] := by
      rw [List.dropWhile_cons, if_pos h]
      rfl
    rw [hc]
    show _ = ((s.dropWhile pyWS).reverse.dropWhile pyWS).reverse
    rw [hs]
  · rw [if_neg he, List.reverse_append]
    show ((c :: (s.dropWhile pyWS).reverse).dropWhile pyWS).reverse = _
    rw [List.dropWhile_cons, if_pos h]
    rfl

/-! ### `splitNL` / `joinNL` round trips -/

theorem splitNL_ne_nil : ∀ (s : Str), splitNL s ≠ [] := by
  intro s
  cases s with
  | nil => simp [splitNL]
  | cons c rest =>
    simp only [splitNL]
    by_cases hc : c = '\n'
    · simp [hc]
    · rw [if_neg hc]
      cases splitNL rest <;> simp

theorem joinNL_cons_of_ne_nil (x : Str) (R : List Str) (hR : R ≠ []) :
    joinNL (x :: R) = x ++ '\n' :: joinNL R := by
  cases R with
  | nil => exact absurd rfl hR
  | cons y R' => rfl

theorem joinNL_splitNL : ∀ (s : Str), joinNL (splitNL s) = s := by
  intro s
  induction s with
  | nil => rfl
  | cons c rest ih =>
    simp only [splitNL]
    by_cases hc : c = '\n'
    · rw [if_pos hc, joinNL_cons_of_ne_nil [] (splitNL rest) (splitNL_ne_nil rest), ih, hc]
      rfl
    · rw [if_neg hc]
      cases hh : splitNL rest with
      | nil => exact absurd hh (splitNL_ne_nil rest)
      | cons l ls =>
        rw [hh] at ih
        cases ls with
        | nil =>
          show joinNL [c :: l] = c :: rest
          show c :: l = c :: rest
          rw [show joinNL [l] = l from rfl] at ih
          rw [ih]
        | cons l₂ ls₂ =>
          rw [joinNL_cons_of_ne_nil (c :: l) (l₂ :: ls₂) (by simp)]
          rw [joinNL_cons_of_ne_nil l (l₂ :: ls₂) (by simp)] at ih
          rw [List.cons_append, ih]

theorem splitNL_no_newline : ∀ (s : Str) (l : Str), l ∈ splitNL s → ('\n' : Char) ∉ l := by
  intro s
  induction s with
  | nil => intro l hl; simp [splitNL] at hl; simp [hl]
  | cons c rest ih =>
    intro l hl
    simp only [splitNL] at hl
    by_cases hc : c = '\n'
    · rw [if_pos hc] at hl
      rcases List.mem_cons.mp hl with h | h
      · simp [h]
      · exact ih l h
    · rw [if_neg hc] at hl
      cases hh : splitNL rest with
      | nil => exact absurd hh (splitNL_ne_nil rest)
      | cons x xs =>
        rw [hh] at hl
        rcases List.mem_cons.mp hl with h | h
        · have hx : ('\n' : Char) ∉ x := ih x (by rw [hh]; simp)
          rw [h]
          intro hmem
          rcases List.mem_cons.mp hmem with h' | h'
          · exact hc h'.symm
          · exact hx h'
        · exact ih l (by rw [hh]; exact List.mem_cons_of_mem x h)

theorem splitNL_no_nl_single (l : Str) (h : ('\n' : Char) ∉ l) : splitNL l = [l] := by
  induction l with
  | nil => rfl
  | cons c rest ih =>
    simp only [splitNL]
    rw [if_neg (fun hc => h (by rw [hc]; simp))]
    rw [ih (fun hm => h (List.mem_cons_of_mem c hm))]

theorem splitNL_append_nl (l r : Str) (h : ('\n' : Char) ∉ l) :
    splitNL (l ++ '\n' :: r) = l :: splitNL r := by
  induction l with
  | nil => simp [splitNL]
  | cons c l' ih =>
    simp only [List.cons_append, splitNL, List.append_eq]
    rw [if_neg (fun hc => h (by rw [hc]; simp))]
    rw [ih (fun hm => h (List.mem_cons_of_mem c hm))]

theorem splitNL_joinNL : ∀ (L : List Str), L ≠ [] → (∀ l ∈ L, ('\n' : Char) ∉ l) →
    splitNL (joinNL L) = L := by
  intro L
  induction L with
  | nil => intro h _; exact absurd rfl h
  | cons l L' ih =>
    intro _ hnl
    cases L' with
    | nil => exact splitNL_no_nl_single l (hnl l (by simp))
    | cons l₂ L₂ =>
      rw [joinNL_cons_of_ne_nil l (l₂ :: L₂) (by simp),
        splitNL_append_nl l (joinNL (l₂ :: L₂)) (hnl l (by simp)),
        ih (by simp) (fun x hx => hnl x (List.mem_cons_of_mem l hx))]

/-! ### Rendering the extracted mapping back to markdown
(scripts/prd_auto.py, markdown writer) -/

/-- The fixed preamble written by scripts/prd_auto.py before the sections. -/
def prdPrelude : Str :=
  ("# Product Requirements Document (PRD)\n\n" ++
    "This document outlines the product requirements and specifications.\n\n").data

/-- One section as written: `f"## {section}\n\n{content}\n\n"`. -/
def entryStr (p : Str × Str) : Str :=
  "## ".data ++ p.1 ++ "\n\n".data ++ p.2 ++ "\n\n".data

/-- The full markdown document written by the writer loop. -/
def render_markdown (d : List (Str × Str)) : Str :=
  prdPrelude ++ (d.map entryStr).flatten

/-- The preamble as lines. -/
def preludeLines : List Str :=
  [ "# Product Requirements Document (PRD)".data, []
  , "This document outlines the product requirements and specifications.".data, [] ]

/-- One section as lines. -/
def blockOf (p : Str × Str) : List Str :=
  (hdrMark ++ p.1) :: [] :: splitNL p.2 ++ [[]]

theorem joinNL_append (A B : List Str) (hA : A ≠ []) (hB : B ≠ []) :
    joinNL (A ++ B) = joinNL A ++ '\n' :: joinNL B := by
  induction A with
  | nil => exact absurd rfl hA
  | cons a A' ih =>
    cases A' with
    | nil =>
      rw [List.cons_append, List.nil_append,
        joinNL_cons_of_ne_nil a B hB]
      rfl
    | cons a₂ A₂ =>
      rw [List.cons_append,
        joinNL_cons_of_ne_nil a ((a₂ :: A₂) ++ B) (by simp),
        joinNL_cons_of_ne_nil a (a₂ :: A₂) (by simp),
        ih (by simp)]
      simp

theorem blocks_join : ∀ (d : List (Str × Str)),
    joinNL ((d.map blockOf).flatten ++ [[]]) = (d.map entryStr).flatten := by
  intro d
  induction d with
  | nil => rfl
  | cons p rest ih =>
    rw [List.map_cons, List.flatten_cons, List.map_cons, List.flatten_cons, ← ih]
    rw [List.append_assoc]
    have h1 : blockOf p ++ ((rest.map blockOf).flatten ++ [[]]) =
        (hdrMark ++ p.1) :: [] ::
          (splitNL p.2 ++ ([] :: ((rest.map blockOf).flatten ++ [[]]))) := by
      simp [blockOf, List.append_assoc]
    rw [h1,
      joinNL_cons_of_ne_nil _ _ (by simp),
      joinNL_cons_of_ne_nil _ _ (by simp),
      joinNL_append (splitNL p.2) ([] :: ((rest.map blockOf).flatten ++ [[]]))
        (splitNL_ne_nil _) (by simp),
      joinNL_splitNL,
      joinNL_cons_of_ne_nil [] _ (by simp)]
    have h2 : ("## ".data : Str) = hdrMark := by decide
    have h3 : ("\n\n".data : Str) = ['\n', '\n'] := by decide
    simp [entryStr, h2, h3, List.append_assoc]
    rfl

theorem render_markdown_as_lines (d : List (Str × Str)) :
    render_markdown d = joinNL (preludeLines ++ ((d.map blockOf).flatten ++ [[]])) := by
  rw [joinNL_append preludeLines ((d.map blockOf).flatten ++ [[]])
    (by simp [preludeLines]) (by simp), blocks_join]
  have h1 : joinNL preludeLines ++ ['\n'] = prdPrelude := by decide
  rw [render_markdown, ← h1, List.append_assoc]
  rfl

/-! ### Invariants of the extracted mapping -/

/-- Keys of the extracted dict are non-empty, stripped, newline-free;
values are stripped. -/
def goodDict (d : List (Str × Str)) : Prop :=
  ∀ p ∈ d, p.1 ≠ [] ∧ pyStrip p.1 = p.1 ∧ ('\n' : Char) ∉ p.1 ∧ pyStrip p.2 = p.2

theorem goodDict_dictInsert (d : List (Str × Str)) (k v : Str) (hd : goodDict d)
    (hk1 : k ≠ []) (hk2 : pyStrip k = k) (hk3 : ('\n' : Char) ∉ k)
    (hv : pyStrip v = v) : goodDict (dictInsert d k v) := by
  unfold dictInsert
  split
  · intro p hp
    obtain ⟨q, hq, hpq⟩ := List.exists_of_mem_map hp
    by_cases hqk : q.1 = k
    · rw [if_pos hqk] at hpq
      rw [← hpq]
      exact ⟨hk1, hk2, hk3, hv⟩
    · rw [if_neg hqk] at hpq
      rw [← hpq]
      exact hd q hq
  · intro p hp
    rcases List.mem_append.mp hp with h | h
    · exact hd p h
    · simp only [List.mem_singleton] at h
      rw [h]
      exact ⟨hk1, hk2, hk3, hv⟩

theorem pyStrip_subset (s : Str) : pyStrip s ⊆ s := by
  intro c hc
  unfold pyStrip at hc
  rw [List.mem_reverse] at hc
  have h1 := (List.dropWhile_sublist pyWS (l := (s.dropWhile pyWS).reverse)).subset hc
  rw [List.mem_reverse] at h1
  exact (List.dropWhile_sublist pyWS (l := s)).subset h1

theorem headerName_facts (l : Str) (hl : ('\n' : Char) ∉ l) :
    pyStrip (headerName l) = headerName l ∧ ('\n' : Char) ∉ headerName l := by
  refine ⟨pyStrip_idem _, fun hm => ?_⟩
  exact hl (List.drop_subset 3 l (pyStrip_subset _ hm))

theorem runExtract_goodDict : ∀ (ls : List Str) (d : List (Str × Str)) (cur : Str)
    (acc : List Str), goodDict d → pyStrip cur = cur → ('\n' : Char) ∉ cur →
    (∀ l ∈ ls, ('\n' : Char) ∉ l) → goodDict (runExtract d cur acc ls) := by
  intro ls
  induction ls with
  | nil =>
    intro d cur acc hd hc1 hc2 _
    simp only [runExtract]
    split
    · exact hd
    · next hcur => exact goodDict_dictInsert d cur _ hd hcur hc1 hc2 (pyStrip_idem _)
  | cons l ls ih =>
    intro d cur acc hd hc1 hc2 hnl
    simp only [runExtract]
    split
    · have hlnl : ('\n' : Char) ∉ l := hnl l (by simp)
      obtain ⟨hh1, hh2⟩ := headerName_facts l hlnl
      refine ih _ _ [] ?_ hh1 hh2 (fun x hx => hnl x (List.mem_cons_of_mem l hx))
      split
      · exact hd
      · next hcur => exact goodDict_dictInsert d cur _ hd hcur hc1 hc2 (pyStrip_idem _)
    · split
      · exact ih _ _ _ hd hc1 hc2 (fun x hx => hnl x (List.mem_cons_of_mem l hx))
      · exact ih _ _ _ hd hc1 hc2 (fun x hx => hnl x (List.mem_cons_of_mem l hx))

theorem extract_goodDict (doc : Str) : goodDict (extract_spec_sections doc) := by
  refine runExtract_goodDict _ _ _ _ (fun p hp => absurd hp (by simp)) rfl (by simp) ?_
  intro l hl
  exact splitNL_no_newline doc l hl

/-! ### Extracting the rendered document returns the original mapping -/

theorem isHeader_hdr_append (k : Str) : isHeader (hdrMark ++ k) = true :=
  List.isPrefixOf_iff_prefix.mpr ⟨k, rfl⟩

theorem runExtract_skip_nonheaders : ∀ (ms : List Str),
    (∀ l ∈ ms, isHeader l = false) →
    ∀ (d : List (Str × Str)) (acc : List Str) (ls : List Str),
      runExtract d [] acc (ms ++ ls) = runExtract d [] acc ls := by
  intro ms
  induction ms with
  | nil => intro _ d acc ls; rfl
  | cons m ms ih =>
    intro hm d acc ls
    rw [List.cons_append]
    show runExtract d [] acc (m :: (ms ++ ls)) = _
    simp only [runExtract, hm m (by simp), Bool.false_eq_true, if_false, if_pos rfl]
    exact ih (fun x hx => hm x (List.mem_cons_of_mem m hx)) d acc ls

theorem runExtract_accum : ∀ (ms : List Str),
    (∀ l ∈ ms, isHeader l = false) →
    ∀ (d : List (Str × Str)) (cur : Str) (acc : List Str) (ls : List Str), cur ≠ [] →
      runExtract d cur acc (ms ++ ls) = runExtract d cur (acc ++ ms) ls := by
  intro ms
  induction ms with
  | nil => intro _ d cur acc ls _; rw [List.append_nil]; rfl
  | cons m ms ih =>
    intro hm d cur acc ls hcur
    rw [List.cons_append]
    show runExtract d cur acc (m :: (ms ++ ls)) = _
    simp only [runExtract, hm m (by simp), Bool.false_eq_true, if_false, if_neg hcur]
    rw [ih (fun x hx => hm x (List.mem_cons_of_mem m hx)) d cur (acc ++ [m]) ls hcur,
      List.append_assoc]
    rfl

theorem runExtract_header_start (d : List (Str × Str)) (acc : List Str) (l : Str)
    (ls : List Str) (hl : isHeader l = true) :
    runExtract d [] acc (l :: ls) = runExtract d (headerName l) [] ls := by
  simp only [runExtract, hl, if_pos rfl]
  simp

theorem runExtract_header_flush (d : List (Str × Str)) (cur : Str) (acc : List Str)
    (l : Str) (ls : List Str) (hl : isHeader l = true) (hcur : cur ≠ []) :
    runExtract d cur acc (l :: ls) =
      runExtract (dictInsert d cur (pyStrip (joinNL acc))) (headerName l) [] ls := by
  simp only [runExtract, hl, if_pos rfl, if_neg hcur]
  simp

theorem any_key_eq_false (d : List (Str × Str)) (k : Str) (h : k ∉ keysOf d) :
    d.any (fun p => p.1 = k) = false := by
  rw [Bool.eq_false_iff]
  intro hany
  rw [List.any_eq_true] at hany
  obtain ⟨p, hp, hpk⟩ := hany
  apply h
  have hpk' : p.1 = k := by simpa using hpk
  rw [← hpk']
  exact List.mem_map_of_mem _ hp

theorem strip_block_value (v : Str) (hv : pyStrip v = v) :
    pyStrip ('\n' :: (v ++ ['\n'])) = v := by
  rw [pyStrip_cons_ws '\n' (by decide), pyStrip_append_ws v '\n' (by decide), hv]

theorem strip_block_value₂ (v : Str) (hv : pyStrip v = v) :
    pyStrip ('\n' :: (v ++ ['\n', '\n'])) = v := by
  rw [pyStrip_cons_ws '\n' (by decide),
    show v ++ ['\n', '\n'] = (v ++ ['\n']) ++ ['\n'] by simp,
    pyStrip_append_ws _ '\n' (by decide), pyStrip_append_ws v '\n' (by decide), hv]

theorem hdr_drop (k : Str) : (hdrMark ++ k).drop 3 = k := by
  have h := List.drop_left hdrMark k
  exact h

theorem runExtract_render_blocks : ∀ (entries : List (Str × Str))
    (d : List (Str × Str)),
    goodDict entries →
    (∀ p ∈ entries, ∀ l ∈ splitNL p.2, isHeader l = false) →
    (keysOf (d ++ entries)).Nodup →
    runExtract d [] [] ((entries.map blockOf).flatten ++ [[]]) = d ++ entries := by
  intro entries
  induction entries with
  | nil =>
    intro d _ _ _
    rw [List.map_nil, List.flatten_nil, List.nil_append, List.append_nil]
    have h := runExtract_skip_nonheaders [[]] (by
      intro l hl
      simp only [List.mem_singleton] at hl
      rw [hl]
      decide) d [] []
    rw [List.append_nil] at h
    rw [h]
    simp [runExtract]
  | cons p rest ih =>
    intro d hgood hnh hnodup
    obtain ⟨k, v⟩ := p
    obtain ⟨hk1, hk2, hk3, hv⟩ := hgood (k, v) (by simp)
    have hmids : ∀ l ∈ ([] :: (splitNL v ++ [[]]) : List Str), isHeader l = false := by
      intro l hl
      rcases List.mem_cons.mp hl with h | h
      · rw [h]; decide
      · rcases List.mem_append.mp h with h' | h'
        · exact hnh (k, v) (by simp) l h'
        · simp only [List.mem_singleton] at h'
          rw [h']; decide
    have hfresh : d.any (fun q => q.1 = k) = false := by
      apply any_key_eq_false
      intro hmem
      have hsplit : keysOf (d ++ (k, v) :: rest) = keysOf d ++ keysOf ((k, v) :: rest) := by
        simp [keysOf]
      have hnod2 := hnodup
      rw [hsplit, List.nodup_append] at hnod2
      exact hnod2.2.2 hmem (by simp [keysOf])
    have hins : dictInsert d k v = d ++ [(k, v)] := by
      unfold dictInsert
      rw [hfresh]
      simp
    rw [List.map_cons, List.flatten_cons, List.append_assoc]
    show runExtract d [] [] ((hdrMark ++ k) :: ([] :: (splitNL v ++ [[]])) ++
      ((rest.map blockOf).flatten ++ [[]])) = _
    rw [List.cons_append,
      runExtract_header_start d [] (hdrMark ++ k) _ (isHeader_hdr_append k),
      show headerName (hdrMark ++ k) = k by rw [headerName, hdr_drop]; exact hk2,
      runExtract_accum ([] :: (splitNL v ++ [[]])) hmids d k [] _ hk1]
    cases rest with
    | nil =>
      rw [List.map_nil, List.flatten_nil]
      simp only [List.nil_append]
      have hacc := runExtract_accum [[]] (by
          intro l hl
          simp only [List.mem_singleton] at hl
          rw [hl]
          decide) d k ([] :: (splitNL v ++ [[]])) [] hk1
      rw [List.append_nil] at hacc
      rw [hacc]
      show (if k = [] then d else dictInsert d k
        (pyStrip (joinNL ((([] : Str) :: (splitNL v ++ [[]])) ++ [[]])))) = _
      rw [if_neg hk1]
      have hjoin : joinNL ((([] : Str) :: (splitNL v ++ [[]])) ++ [[]]) =
          '\n' :: (v ++ ['\n', '\n']) := by
        rw [List.cons_append,
          joinNL_cons_of_ne_nil [] _ (by simp),
          List.append_assoc,
          joinNL_append (splitNL v) ([[]] ++ [[]]) (splitNL_ne_nil v) (by simp),
          joinNL_splitNL]
        rfl
      rw [hjoin, strip_block_value₂ v hv, hins]
    | cons p₂ rest₂ =>
      rw [List.map_cons, List.flatten_cons, List.append_assoc]
      show runExtract d k ([] ++ [] :: (splitNL v ++ [[]]))
        (((hdrMark ++ p₂.1) :: ([] :: (splitNL p₂.2 ++ [[]]))) ++
          ((rest₂.map blockOf).flatten ++ [[]])) = _
      rw [List.cons_append]
      show runExtract d k ([] ++ [] :: (splitNL v ++ [[]]))
        ((hdrMark ++ p₂.1) :: (([] :: (splitNL p₂.2 ++ [[]])) ++
          ((rest₂.map blockOf).flatten ++ [[]]))) = _
      rw [runExtract_header_flush d k ([] ++ [] :: (splitNL v ++ [[]])) (hdrMark ++ p₂.1)
        _ (isHeader_hdr_append p₂.1) hk1]
      have hjoin : joinNL (([] : List Str) ++ [] :: (splitNL v ++ [[]])) =
          '\n' :: (v ++ ['\n']) := by
        rw [List.nil_append,
          joinNL_cons_of_ne_nil [] _ (by simp),
          joinNL_append (splitNL v) [[]] (splitNL_ne_nil v) (by simp),
          joinNL_splitNL]
        rfl
      rw [hjoin, strip_block_value v hv, hins]
      rw [← runExtract_header_start (d ++ [(k, v)]) [] (hdrMark ++ p₂.1) _
        (isHeader_hdr_append p₂.1)]
      have hIH := ih (d ++ [(k, v)])
        (fun q hq => hgood q (List.mem_cons_of_mem _ hq))
        (fun q hq => hnh q (List.mem_cons_of_mem _ hq))
        (by
          have h2 : (d ++ [(k, v)]) ++ (p₂ :: rest₂) = d ++ ((k, v) :: p₂ :: rest₂) := by
            simp
          rw [h2]
          exact hnodup)
      rw [List.map_cons, List.flatten_cons] at hIH
      have hassoc : (d ++ [(k, v)]) ++ (p₂ :: rest₂) = d ++ ((k, v) :: p₂ :: rest₂) := by
        simp
      rw [← hassoc]
      rw [List.append_assoc] at hIH
      show runExtract (d ++ [(k, v)]) [] []
        ((hdrMark ++ p₂.1) :: (([] :: (splitNL p₂.2 ++ [[]])) ++
          ((rest₂.map blockOf).flatten ++ [[]]))) = _
      rw [← List.cons_append]
      show runExtract (d ++ [(k, v)]) [] []
        (blockOf p₂ ++ ((rest₂.map blockOf).flatten ++ [[]])) = _
      exact hIH

/-- Counterexample for C8 as stated: in `"## A\n  ## B\nz"` the section
body's leading whitespace is trimmed away, turning `"  ## B"` into a line
that re-extraction reads as a header, so rendering and re-extracting does
not reproduce the first extraction. -/
theorem C8_counterexample :
    extract_spec_sections (render_markdown
        (extract_spec_sections "## A\n  ## B\nz".data)) ≠
      extract_spec_sections "## A\n  ## B\nz".data := by
  decide

/-- Claim C8 (amended): rendering the extracted mapping back to markdown as
the document writers do and extracting again reproduces the mapping,
provided no line of an extracted section value begins with `'## '` (the
counterexample shows trimming can create such a line). -/
theorem C8_render_extract (doc : Str)
    (h : ∀ p ∈ extract_spec_sections doc, ∀ l ∈ splitNL p.2, isHeader l = false) :
    extract_spec_sections (render_markdown (extract_spec_sections doc)) =
      extract_spec_sections doc := by
  have hgood := extract_goodDict doc
  have hnodup : (keysOf (extract_spec_sections doc)).Nodup :=
    runExtract_keys_nodup _ _ _ _ (by simp [keysOf])
  show runExtract [] [] [] (splitNL (render_markdown (extract_spec_sections doc))) = _
  rw [render_markdown_as_lines, splitNL_joinNL _ (by simp [preludeLines]) (by
    intro l hl
    rcases List.mem_append.mp hl with hp | hbl
    · revert hp
      have : ∀ l ∈ preludeLines, ('\n' : Char) ∉ l := by decide
      exact this l
    · rcases List.mem_append.mp hbl with hb | hlast
      · rw [List.mem_flatten] at hb
        obtain ⟨blk, hblk, hlblk⟩ := hb
        obtain ⟨q, hq, rfl⟩ := List.exists_of_mem_map hblk
        obtain ⟨hq1, hq2, hq3, hq4⟩ := hgood q hq
        rcases List.mem_cons.mp hlblk with h1 | h1
        · rw [h1]
          intro hmem
          rcases List.mem_append.mp hmem with hm | hm
          · revert hm
            decide
          · exact hq3 hm
        · rcases List.mem_cons.mp h1 with h2 | h2
          · rw [h2]; simp
          · rcases List.mem_append.mp h2 with h3 | h3
            · exact splitNL_no_newline q.2 l h3
            · simp only [List.mem_singleton] at h3
              rw [h3]; simp
      · simp only [List.mem_singleton] at hlast
        rw [hlast]; simp)]
  rw [runExtract_skip_nonheaders preludeLines (by decide)]
  have hblocks := runExtract_render_blocks (extract_spec_sections doc) [] hgood h
    (by simpa using hnodup)
  rw [hblocks]
  simp

/-- Witness for C8 (amended) at a concrete two-section document. -/
theorem C8_render_extract_witness :
    (∀ p ∈ extract_spec_sections "## A\nhello\n## B\nworld".data,
      ∀ l ∈ splitNL p.2, isHeader l = false) ∧
    extract_spec_sections (render_markdown
        (extract_spec_sections "## A\nhello\n## B\nworld".data)) =
      extract_spec_sections "## A\nhello\n## B\nworld".data :=
  ⟨by decide, C8_render_extract _ (by decide)⟩
